import Mathlib

/-!
# Pattern dictionary evolution by a genetic algorithm (src/main.c)

A shallow embedding of the block-matching loss, the reconstruction, the
population operators and the generation step of `src/main.c`, followed by the
properties proved about them.

Modelling conventions.

* A C array is a function from its indices to `Int`; a store `a[i][j] = v` is
  the pointwise update `set2 a i j v`.  Only indices inside the declared bounds
  are ever read or written by the code.
* A counted loop `for (k = 0; k < n; k++) body` is `forLoop n body`, which runs
  `body 0`, ..., `body (n - 1)` in that order over an explicit state.
* C `int` values are unbounded integers.  Every quantity computed by the
  embedded code stays far inside the 32-bit range: a distance is at most 9, an
  image loss at most 576, a fitness at most 2880.
* `rand()` reads the next element of an explicit stream of draws.
* A file is the list of its bytes and `fscanf` with `%d` is modelled byte by
  byte; a file that cannot be opened is `none`.
* The floating-point test of `mutate` is a parameter of `mutate`; `mutationTest`
  gives it with the rounding to the floating-point format as a parameter.
-/

namespace PatternGA

/-! ## Constants (main.c lines 6-14) -/

/-- Side length of an image (line 6). -/
abbrev IMAGE_SIZE : Nat := 24

/-- Side length of a block and of a pattern (line 7). -/
abbrev BLOCK_SIZE : Nat := 3

/-- Blocks per image side (line 8). -/
abbrev NUM_BLOCKS : Nat := IMAGE_SIZE / BLOCK_SIZE

/-- Patterns per candidate (line 9). -/
abbrev NUM_PATTERNS : Nat := 7

/-- Population size of the shipped configuration (line 10). -/
abbrev POP_SIZE : Nat := 500

/-- Number of training images (line 13). -/
abbrev NUM_IMAGES : Nat := 5

/-! ## Data model -/

/-- An `int [IMAGE_SIZE][IMAGE_SIZE]` array. -/
abbrev Image : Type := Nat → Nat → Int

/-- An `int [BLOCK_SIZE][BLOCK_SIZE]` array: one block or one pattern. -/
abbrev Block : Type := Nat → Nat → Int

/-- An `int [NUM_PATTERNS][BLOCK_SIZE][BLOCK_SIZE]` array. -/
abbrev Patterns : Type := Nat → Nat → Nat → Int

/-- The struct `Candidate` (lines 22-25). -/
structure Candidate where
  /-- the seven patterns -/
  patterns : Patterns
  /-- the accumulated loss; lower is better -/
  fitness : Int

/-- Counted loop: `forLoop n body s` runs `body 0`, then `body 1`, up to
`body (n - 1)`, threading the state. -/
def forLoop {σ : Type} (n : Nat) (body : Nat → σ → σ) (s : σ) : σ :=
  match n with
  | 0 => s
  | k + 1 => body k (forLoop k body s)

/-- Store `a[r][c] = v` into a two-dimensional array. -/
def set2 (a : Nat → Nat → Int) (r c : Nat) (v : Int) : Nat → Nat → Int :=
  fun r' c' => if r' = r ∧ c' = c then v else a r' c'

/-- Store `a[p][i][j] = v` into a three-dimensional array. -/
def set3 (a : Patterns) (p i j : Nat) (v : Int) : Patterns :=
  fun p' i' j' => if p' = p ∧ i' = i ∧ j' = j then v else a p' i' j'

/-! ## Block-match loss (lines 377-406) and reconstruction (lines 431-466) -/

/-- Lines 385-389 and 439-443: the two loops that copy block `(bi, bj)` of the
image into the local array `block`. -/
def copyBlock (image : Image) (bi bj : Nat) (block : Block) : Block :=
  forLoop BLOCK_SIZE (fun i blk =>
    forLoop BLOCK_SIZE (fun j blk =>
      set2 blk i j (image (bi * BLOCK_SIZE + i) (bj * BLOCK_SIZE + j))) blk) block

/-- Lines 392-398 and 447-453: `distance = 0`, then one increment for every
cell in which the block and the pattern differ. -/
def blockDistance (block pattern : Block) : Int :=
  forLoop BLOCK_SIZE (fun i distance =>
    forLoop BLOCK_SIZE (fun j distance =>
      if block i j ≠ pattern i j then distance + 1 else distance) distance) 0

/-- Lines 390-401: `minDist` starts at `BLOCK_SIZE * BLOCK_SIZE + 1` and is
lowered by every pattern that is strictly closer. -/
def minDistance (block : Block) (candidate : Patterns) : Int :=
  forLoop NUM_PATTERNS (fun p minDist =>
    let distance := blockDistance block (candidate p)
    if distance < minDist then distance else minDist)
    ((BLOCK_SIZE : Int) * BLOCK_SIZE + 1)

/-- The function `computeImageLoss` (lines 377-406).  The local array `block`
is overwritten in all nine cells before it is read (`copyBlock_cell`), so its
earlier contents, taken as zero here, are never observed. -/
def computeImageLoss (image : Image) (candidate : Patterns) : Int :=
  forLoop NUM_BLOCKS (fun bi totalLoss =>
    forLoop NUM_BLOCKS (fun bj totalLoss =>
      let block := copyBlock image bi bj (fun _ _ => 0)
      totalLoss + minDistance block candidate) totalLoss) 0

/-- Lines 444-458: the search loop of `reconstructImage`; the state is the pair
`(minDist, bestIndex)`, started at `(BLOCK_SIZE * BLOCK_SIZE + 1, 0)`. -/
def findBest (block : Block) (candidate : Patterns) : Int × Nat :=
  forLoop NUM_PATTERNS (fun p st =>
    let distance := blockDistance block (candidate p)
    if distance < st.1 then (distance, p) else st)
    ((BLOCK_SIZE : Int) * BLOCK_SIZE + 1, 0)

/-- Lines 459-463: copy pattern `bestIndex` into block `(bi, bj)` of `result`. -/
def writeBlock (candidate : Patterns) (bestIndex bi bj : Nat) (result : Image) : Image :=
  forLoop BLOCK_SIZE (fun i res =>
    forLoop BLOCK_SIZE (fun j res =>
      set2 res (bi * BLOCK_SIZE + i) (bj * BLOCK_SIZE + j) (candidate bestIndex i j)) res) result

/-- The function `reconstructImage` (lines 431-466); `result` is the contents of
the output array on entry and the value returned is its contents on exit. -/
def reconstructImage (image : Image) (candidate : Patterns) (result : Image) : Image :=
  forLoop NUM_BLOCKS (fun bi res =>
    forLoop NUM_BLOCKS (fun bj res =>
      let block := copyBlock image bi bj (fun _ _ => 0)
      let bestIndex := (findBest block candidate).2
      writeBlock candidate bestIndex bi bj res) res) result

/-! ## The random source -/

/-- The state of the C library generator: the sequence of values that `rand()`
is going to return, and how many of them have been consumed. -/
structure Rng where
  /-- the values returned by successive calls of `rand()` -/
  stream : Nat → Nat
  /-- the number of calls made so far -/
  pos : Nat

/-- One call of `rand()`: the value drawn and the advanced generator. -/
def rand (g : Rng) : Nat × Rng :=
  (g.stream g.pos, Rng.mk g.stream (g.pos + 1))

/-! ## Population operators (lines 310-320 and 468-528) -/

/-- The function `generatePatterns` (lines 310-320): every cell receives
`rand() % 2`.  The state is the array together with the generator. -/
def generatePatterns (patterns : Patterns) (g : Rng) : Patterns × Rng :=
  forLoop NUM_PATTERNS (fun i st =>
    forLoop BLOCK_SIZE (fun j st =>
      forLoop BLOCK_SIZE (fun k (st : Patterns × Rng) =>
        (set3 st.1 i j k (((rand st.2).1 % 2 : Nat) : Int), (rand st.2).2)) st) st)
    (patterns, g)

/-- The function `initializePopulation` (lines 468-475). -/
def initializePopulation (population : Nat → Candidate) (popSize : Nat) (g : Rng) :
    (Nat → Candidate) × Rng :=
  forLoop popSize (fun i (st : (Nat → Candidate) × Rng) =>
    let gen := generatePatterns (st.1 i).patterns st.2
    (Function.update st.1 i (Candidate.mk gen.1 0), gen.2)) (population, g)

/-- Lines 483-486 of `evaluatePopulation`: the loss of one pattern set summed
over the `NUM_IMAGES` images. -/
def totalLossOf (images : Nat → Image) (patterns : Patterns) : Int :=
  forLoop NUM_IMAGES (fun img totalLoss =>
    totalLoss + computeImageLoss (images img) patterns) 0

/-- The function `evaluatePopulation` (lines 478-489). -/
def evaluatePopulation (population : Nat → Candidate) (popSize : Nat) (images : Nat → Image) :
    Nat → Candidate :=
  forLoop popSize (fun i pop =>
    Function.update pop i (Candidate.mk (pop i).patterns (totalLossOf images (pop i).patterns)))
    population

/-- The function `tournamentSelection` (lines 491-502).  The local `best` is
declared without an initialiser; `best` stands for whatever it holds on entry,
and only its fitness is set, to the value of `1e9`, before the loop. -/
def tournamentSelection (population : Nat → Candidate) (popSize : Nat) (best : Candidate)
    (g : Rng) : Candidate × Rng :=
  forLoop 3 (fun _ (st : Candidate × Rng) =>
    let index := (rand st.2).1 % popSize
    if (population index).fitness < st.1.fitness then (population index, (rand st.2).2)
    else (st.1, (rand st.2).2))
    (Candidate.mk best.patterns 1000000000, g)

/-- Lines 509-513 of `crossover`: copy the nine cells of slot `p` of `source`
into the child. -/
def copySlot (p : Nat) (source child : Candidate) : Candidate :=
  forLoop BLOCK_SIZE (fun i ch =>
    forLoop BLOCK_SIZE (fun j (ch : Candidate) =>
      Candidate.mk (set3 ch.patterns p i j (source.patterns p i j)) ch.fitness) ch) child

/-- The function `crossover` (lines 504-515); `child` is the contents of
`*child` on entry.  One draw per slot selects the parent. -/
def crossover (child parent1 parent2 : Candidate) (g : Rng) : Candidate × Rng :=
  forLoop NUM_PATTERNS (fun p (st : Candidate × Rng) =>
    let source := if (rand st.2).1 % 2 = 0 then parent1 else parent2
    (copySlot p source st.1, (rand st.2).2)) (child, g)

/-- The function `mutate` (lines 517-528).  The outcome of the floating-point
test `(double)rand() / RAND_MAX < MUTATION_RATE` on a draw `r` is `flips r`. -/
def mutate (flips : Nat → Bool) (candidate : Candidate) (g : Rng) : Candidate × Rng :=
  forLoop NUM_PATTERNS (fun p st =>
    forLoop BLOCK_SIZE (fun i st =>
      forLoop BLOCK_SIZE (fun j (st : Candidate × Rng) =>
        if flips (rand st.2).1 then
          (Candidate.mk (set3 st.1.patterns p i j (1 - st.1.patterns p i j)) st.1.fitness,
            (rand st.2).2)
        else (st.1, (rand st.2).2)) st) st) (candidate, g)

/-! ## The generation step of `main` (lines 222-265)

`POP_SIZE`, `GENERATIONS` and `NEXT_GEN_METHOD` are taken as the parameters
`popSize`, `generations` and `method`; the shipped values are 500, 500 and 0. -/

/-- Lines 228-232 and 245-249: two tournaments, crossover into the local
`child`, mutation.  `uninit` stands for the contents of a local `Candidate`
declared without an initialiser. -/
def makeChild (flips : Nat → Bool) (population : Nat → Candidate) (popSize : Nat)
    (uninit : Candidate) (g : Rng) : Candidate × Rng :=
  let sel1 := tournamentSelection population popSize uninit g
  let sel2 := tournamentSelection population popSize uninit sel1.2
  let crossed := crossover uninit sel1.1 sel2.1 sel2.2
  mutate flips crossed.1 crossed.2

/-- Lines 238-242 and 276-280: `best = population[0]`, then for `i` from 1 to
`popSize - 1` a strictly fitter candidate replaces it.  Iteration `k` of the
model is the iteration `i = k + 1` of the source. -/
def selectBest (population : Nat → Candidate) (popSize : Nat) : Candidate :=
  forLoop (popSize - 1) (fun k best =>
    if (population (k + 1)).fitness < best.fitness then population (k + 1) else best)
    (population 0)

/-- Lines 225-252: fill `newPopulation`, from scratch when `method` is 0,
with the elite in slot 0 otherwise. -/
def buildNewPopulation (method : Nat) (flips : Nat → Bool) (population : Nat → Candidate)
    (popSize : Nat) (newPopulation : Nat → Candidate) (uninit : Candidate) (g : Rng) :
    (Nat → Candidate) × Rng :=
  if method = 0 then
    forLoop popSize (fun i (st : (Nat → Candidate) × Rng) =>
      let made := makeChild flips population popSize uninit st.2
      (Function.update st.1 i made.1, made.2)) (newPopulation, g)
  else
    forLoop (popSize - 1) (fun k (st : (Nat → Candidate) × Rng) =>
      let made := makeChild flips population popSize uninit st.2
      (Function.update st.1 (k + 1) made.1, made.2))
      (Function.update newPopulation 0 (selectBest population popSize), g)

/-- Line 254: `memcpy` of the `popSize` candidates of `newPopulation` over
`population`. -/
def copyPopulation (population newPopulation : Nat → Candidate) (popSize : Nat) :
    Nat → Candidate :=
  fun i => if i < popSize then newPopulation i else population i

/-- Lines 223-255: one generation, from an evaluated population to the next
evaluated population. -/
def generationStep (method : Nat) (flips : Nat → Bool) (images : Nat → Image) (popSize : Nat)
    (newPopulation : Nat → Candidate) (uninit : Candidate) (st : (Nat → Candidate) × Rng) :
    (Nat → Candidate) × Rng :=
  let built := buildNewPopulation method flips st.1 popSize newPopulation uninit st.2
  (evaluatePopulation (copyPopulation st.1 built.1 popSize) popSize images, built.2)

/-- Lines 257-265: the pair `(bestFitness, averageFitness)` of the report; the
loop state is `(bestFitness, totalFitness)` and the C division truncates. -/
def generationReport (population : Nat → Candidate) (popSize : Nat) : Int × Int :=
  let st := forLoop popSize (fun i (st : Int × Int) =>
    (if (population i).fitness < st.1 then (population i).fitness else st.1,
      st.2 + (population i).fitness)) ((population 0).fitness, 0)
  (st.1, Int.tdiv st.2 (popSize : Int))

/-- Lines 210-255: initialisation, first evaluation and `generations` rounds of
the main loop. -/
def runGenerations (method : Nat) (flips : Nat → Bool) (images : Nat → Image) (popSize : Nat)
    (population newPopulation : Nat → Candidate) (uninit : Candidate) (g : Rng)
    (generations : Nat) : (Nat → Candidate) × Rng :=
  forLoop generations (fun _ st =>
    generationStep method flips images popSize newPopulation uninit st)
    (evaluatePopulation (initializePopulation population popSize g).1 popSize images,
      (initializePopulation population popSize g).2)

/-! ## The end of `main` (lines 275-297) -/

/-- Lines 276-280: the best candidate of the final population, found by the
same scan as the elite. -/
def finalBest (method : Nat) (flips : Nat → Bool) (images : Nat → Image) (popSize : Nat)
    (population newPopulation : Nat → Candidate) (uninit : Candidate) (g : Rng)
    (generations : Nat) : Candidate :=
  selectBest (runGenerations method flips images popSize population newPopulation uninit g
    generations).1 popSize

/-- Line 290: the loss logged for image `imgId` and the best candidate. -/
def loggedLoss (images : Nat → Image) (best : Candidate) (imgId : Nat) : Int :=
  computeImageLoss (images imgId) best.patterns

/-- The loop of `tournamentSelection` (lines 496-500) stopped after `n`
iterations; `tournamentSelection` is the case `n = 3`. -/
def tournamentAfter (n : Nat) (population : Nat → Candidate) (popSize : Nat) (best : Candidate)
    (g : Rng) : Candidate × Rng :=
  forLoop n (fun _ (st : Candidate × Rng) =>
    let index := (rand st.2).1 % popSize
    if (population index).fitness < st.1.fitness then (population index, (rand st.2).2)
    else (st.1, (rand st.2).2))
    (Candidate.mk best.patterns 1000000000, g)

/-- The test `(double)rand() / RAND_MAX < MUTATION_RATE` of line 523 on a draw
`r`.  `fl` rounds a rational to the floating-point format; the conversion of
`r` and of `RAND_MAX` is exact, the quotient is rounded, and the constant
`0.05` is the rounded value of 5/100. -/
def mutationTest (fl : ℚ → ℚ) (RAND_MAX : Nat) (r : Nat) : Bool :=
  decide (fl ((r : ℚ) / (RAND_MAX : ℚ)) < fl (5 / 100))

/-! ## Image loading (lines 355-374 and 178-185)

A file is the list of its bytes.  `fscanf(fp, "%d", &x)` skips white space,
then reads the longest numeral at the head of the input, an optional sign
followed by decimal digits, and leaves every byte after it unread. -/

/-- White space for `fscanf`: space, tab, line feed, vertical tab, form feed,
carriage return. -/
def isSpaceByte (b : Nat) : Bool :=
  decide (b = 32) || (decide (9 ≤ b) && decide (b ≤ 13))

/-- The decimal digits `0` to `9`. -/
def isDigitByte (b : Nat) : Bool :=
  decide (48 ≤ b) && decide (b ≤ 57)

/-- The input without its leading white space. -/
def skipSpace : List Nat → List Nat
  | [] => []
  | b :: rest => if isSpaceByte b then skipSpace rest else b :: rest

/-- The digits at the head of the input: the number they denote after the
digits accumulated in `acc`, and the input from the first byte that is not a
digit. -/
def readDigits (acc : Nat) : List Nat → Nat × List Nat
  | [] => (acc, [])
  | b :: rest =>
    if isDigitByte b then readDigits (10 * acc + (b - 48)) rest else (acc, b :: rest)

/-- An unsigned numeral at the head of the input: at least one digit. -/
def readNumeral (input : List Nat) : Option (Nat × List Nat) :=
  match input with
  | [] => none
  | b :: _ => if isDigitByte b then some (readDigits 0 input) else none

/-- A numeral with its optional sign at the head of the input: its value and
the input after its last digit.  Byte 45 is the minus sign and byte 43 the
plus sign. -/
def readSigned (input : List Nat) : Option (Int × List Nat) :=
  match input with
  | [] => none
  | b :: rest =>
    if b = 45 then (readNumeral rest).map (fun r => (-(r.1 : Int), r.2))
    else if b = 43 then (readNumeral rest).map (fun r => ((r.1 : Int), r.2))
    else (readNumeral (b :: rest)).map (fun r => ((r.1 : Int), r.2))

/-- One call `fscanf(fp, "%d", &x)` on the unread input.  The result is `none`
when the call does not return 1: the input ends before a numeral, or the
bytes after the white space do not begin a numeral.  Otherwise it is the value
of the numeral as written and the input left unread after it. -/
def scanInt (input : List Nat) : Option (Int × List Nat) :=
  readSigned (skipSpace input)

/-- The state of the loops of `readImage`: the array, the unread input, and
whether the function has returned -1 from inside the loops. -/
structure ReadState where
  /-- the contents of the array `image` -/
  image : Image
  /-- the bytes of the file not read so far -/
  input : List Nat
  /-- set once a conversion has failed; the remaining iterations do not run -/
  failed : Bool

/-- Lines 363-371 of `readImage`: the two loops over the cells.  A failed
`fscanf` makes the function return at once, so the remaining iterations do
nothing.  The cell is an `int`: `toInt v` is the `int` that the conversion
stores for a numeral of value `v`, which is `v` itself when `v` is in the range
of `int` and is left to the C library otherwise. -/
def readCells (toInt : Int → Int) (input : List Nat) (image : Image) : ReadState :=
  forLoop IMAGE_SIZE (fun i st =>
    forLoop IMAGE_SIZE (fun j (st : ReadState) =>
      if st.failed then st
      else
        match scanInt st.input with
        | some (v, rest) => ReadState.mk (set2 st.image i j (toInt v)) rest false
        | none => ReadState.mk st.image st.input true) st) (ReadState.mk image input false)

/-- The function `readImage` (lines 355-374): the return value and the array.
`none` is a file that `fopen` cannot open.  A failure inside the loops returns
-1 and leaves the cells stored so far in the array. -/
def readImage (toInt : Int → Int) (file : Option (List Nat)) (image : Image) : Int × Image :=
  match file with
  | none => (-1, image)
  | some input =>
    if (readCells toInt input image).failed then (-1, (readCells toInt input image).image)
    else (0, (readCells toInt input image).image)

/-- Lines 180-184: the files named by the user are tried in turn until
`readImage` returns 0.  The list holds the files behind the names still to be
entered; when it is exhausted the loop is still prompting and no image is
delivered. -/
def loadImage (toInt : Int → Int) (attempts : List (Option (List Nat))) (image : Image) :
    Option (Image × List (Option (List Nat))) :=
  match attempts with
  | [] => none
  | file :: rest =>
    if (readImage toInt file image).1 ≠ 0 then loadImage toInt rest (readImage toInt file image).2
    else some ((readImage toInt file image).2, rest)

/-- Lines 178-185: the loader loop over the `NUM_IMAGES` images. -/
def loadImages (toInt : Int → Int) (attempts : List (Option (List Nat)))
    (images : Nat → Image) : Option ((Nat → Image) × List (Option (List Nat))) :=
  forLoop NUM_IMAGES (fun imgId st =>
    match st with
    | none => none
    | some (imgs, att) =>
      match loadImage toInt att (imgs imgId) with
      | none => none
      | some (img, rest) => some (Function.update imgs imgId img, rest))
    (some (images, attempts))

/-! ## The loss with the sizes as parameters

The macros `IMAGE_SIZE`, `BLOCK_SIZE` and `NUM_PATTERNS` of lines 6-9 taken as
parameters; `NUM_BLOCKS` is the truncated quotient of line 8. -/

/-- Lines 385-389 with `BLOCK_SIZE` as a parameter. -/
def copyBlockFor (blockSize : Nat) (image : Image) (bi bj : Nat) (block : Block) : Block :=
  forLoop blockSize (fun i blk =>
    forLoop blockSize (fun j blk =>
      set2 blk i j (image (bi * blockSize + i) (bj * blockSize + j))) blk) block

/-- Lines 392-398 with `BLOCK_SIZE` as a parameter. -/
def blockDistanceFor (blockSize : Nat) (block pattern : Block) : Int :=
  forLoop blockSize (fun i distance =>
    forLoop blockSize (fun j distance =>
      if block i j ≠ pattern i j then distance + 1 else distance) distance) 0

/-- Lines 390-401 with `BLOCK_SIZE` and `NUM_PATTERNS` as parameters. -/
def minDistanceFor (blockSize numPatterns : Nat) (block : Block) (candidate : Patterns) : Int :=
  forLoop numPatterns (fun p minDist =>
    let distance := blockDistanceFor blockSize block (candidate p)
    if distance < minDist then distance else minDist)
    ((blockSize : Int) * blockSize + 1)

/-- The function `computeImageLoss` (lines 377-406) with the three sizes as
parameters and `NUM_BLOCKS = imageSize / blockSize`. -/
def computeImageLossFor (imageSize blockSize numPatterns : Nat) (image : Image)
    (candidate : Patterns) : Int :=
  forLoop (imageSize / blockSize) (fun bi totalLoss =>
    forLoop (imageSize / blockSize) (fun bj totalLoss =>
      let block := copyBlockFor blockSize image bi bj (fun _ _ => 0)
      totalLoss + minDistanceFor blockSize numPatterns block candidate) totalLoss) 0

/-! ## Reference notions used to state the properties -/

/-- Block `(bi, bj)` of an image, as a 3x3 array. -/
def imageBlock (img : Image) (bi bj : Nat) : Block :=
  fun i j => img (bi * 3 + i) (bj * 3 + j)

/-- Hamming distance: the number of the nine cells in which two 3x3 arrays
differ. -/
def hamming (a b : Block) : Nat :=
  ((Finset.range 3 ×ˢ Finset.range 3).filter (fun ij => a ij.1 ij.2 ≠ b ij.1 ij.2)).card

/-- Least Hamming distance from a block to one of the seven patterns. -/
def minHamming (b : Block) (c : Patterns) : Nat :=
  (Finset.range 7).inf' ⟨0, Finset.mem_range.2 (Nat.succ_pos 6)⟩ (fun p => hamming b (c p))

/-- Every cell of a pattern set holds 0 or 1. -/
def Binary (p : Patterns) : Prop :=
  ∀ k i j, k < 7 → i < 3 → j < 3 → p k i j = 0 ∨ p k i j = 1

/-- The pattern set with its seven slots rearranged by `s`: slot `p` of the
result is slot `s p` of `c`. -/
def permutePatterns (s : Equiv.Perm (Fin 7)) (c : Patterns) : Patterns :=
  fun p i j => if h : p < 7 then c (s ⟨p, h⟩) i j else c p i j

/-- The value of a cell after `mutate` when the draw number `d` counted from
the generator `g` decides about it: 1 minus the value when the test succeeds,
the value itself otherwise. -/
def flipCell (flips : Nat → Bool) (g : Rng) (d : Nat) (v : Int) : Int :=
  if flips (g.stream (g.pos + d)) then 1 - v else v

/-- A sample rounding: the nearest multiple of 2^-57, which is the spacing of
the binary64 numbers between 1/32 and 1/16. -/
def roundNearest57 (q : ℚ) : ℚ :=
  (⌊q * 2 ^ 57 + 1 / 2⌋ : ℚ) / 2 ^ 57

/-- The input left unread after `n` successful conversions in a row; `none`
when one of them fails. -/
def inputAfter : Nat → List Nat → Option (List Nat)
  | 0, input => some input
  | n + 1, input =>
    match inputAfter n input with
    | none => none
    | some rest => (scanInt rest).map Prod.snd

/-- The value of the numeral read by conversion number `k`, counted from 0. -/
def valueAt (input : List Nat) (k : Nat) : Option Int :=
  match inputAfter k input with
  | none => none
  | some rest => (scanInt rest).map Prod.fst

/-- 576 conversions in a row succeed on the input. -/
def AllConverted (input : List Nat) : Prop :=
  ∃ rest, inputAfter 576 input = some rest

/-- Every cell `(i, j)` of the image holds the `int` stored for the numeral
read by conversion number `24 * i + j` on the input. -/
def LoadedFrom (toInt : Int → Int) (input : List Nat) (img : Image) : Prop :=
  ∀ i j, i < 24 → j < 24 → ∃ v, valueAt input (24 * i + j) = some v ∧ img i j = toInt v

/-- The longest run of bytes without white space at the head of the input, and
the input after it. -/
def takeWord : List Nat → List Nat × List Nat
  | [] => ([], [])
  | b :: rest =>
    if isSpaceByte b then ([], b :: rest) else (b :: (takeWord rest).1, (takeWord rest).2)

/-- The input after its first `n` whitespace-separated tokens. -/
def afterWords : Nat → List Nat → List Nat
  | 0, input => input
  | n + 1, input => (takeWord (skipSpace (afterWords n input))).2

/-- The whitespace-separated token number `k` of the input, counted from 0;
empty when the input has no such token. -/
def nthWord (input : List Nat) (k : Nat) : List Nat :=
  (takeWord (skipSpace (afterWords k input))).1

/-- A nonempty run of digits. -/
def isNumeral (w : List Nat) : Bool :=
  !w.isEmpty && w.all isDigitByte

/-- The token is an integer: an optional sign followed by a nonempty run of
digits, and nothing else. -/
def isIntegerWord (w : List Nat) : Bool :=
  match w with
  | [] => false
  | b :: rest => if b = 45 ∨ b = 43 then isNumeral rest else isNumeral (b :: rest)

/-- A sample conversion to `int`: reduction modulo 2^32 into the range from
-2^31 to 2^31 - 1. -/
def wrapInt32 (v : Int) : Int :=
  (v + 2147483648) % 4294967296 - 2147483648

/-- The bytes `unit` written `n` times, followed by `tail`. -/
def repeated (unit : List Nat) : Nat → List Nat → List Nat
  | 0, tail => tail
  | n + 1, tail => unit ++ repeated unit n tail

/-! ## Sample inputs -/

/-- An image with a diagonal stripe every fifth cell. -/
def sampleImage : Image := fun r c => if (r + c) % 5 = 0 then 1 else 0

/-- A pattern set: slot 2 is the diagonal, slot 4 is all ones, the rest are
all zeros. -/
def samplePatterns : Patterns :=
  fun p i j => if p = 2 then (if i = j then 1 else 0) else if p = 4 then 1 else 0

/-- A generator returning 1, 4, 7, 10, ... -/
def sampleRng : Rng := Rng.mk (fun n => 3 * n + 1) 0

/-- A population in which candidate `i` has fitness `10 * i`. -/
def samplePopulation : Nat → Candidate :=
  fun i => Candidate.mk samplePatterns (10 * (i : Int))

/-- The sample population after evaluation of its first two candidates against
five copies of the sample image. -/
def sampleEvaluated : Nat → Candidate :=
  evaluatePopulation samplePopulation 2 (fun _ => sampleImage)

/-- The file ` 1 1 ... 1x`: 576 times a space and the digit 1, then the letter
x.  Its tokens are 575 times `1` and then `1x`. -/
def onesThenX : List Nat := repeated [32, 49] 576 [120]

/-- The file ` 7 7 ... 7`: 576 times a space and the digit 7. -/
def sevens : List Nat := repeated [32, 55] 576 []

/-! ## Loops -/

theorem forLoop_succ {σ : Type} (n : Nat) (body : Nat → σ → σ) (s : σ) :
    forLoop (n + 1) body s = body n (forLoop n body s) := rfl

/-- Loop invariant rule. -/
theorem forLoop_induct {σ : Type} (P : Nat → σ → Prop) (n : Nat) (body : Nat → σ → σ) (s : σ)
    (h0 : P 0 s) (hs : ∀ k t, k < n → P k t → P (k + 1) (body k t)) :
    P n (forLoop n body s) := by
  induction n with
  | zero => exact h0
  | succ m ih =>
    rw [forLoop_succ]
    exact hs m _ (Nat.lt_succ_self m) (ih (fun k t hk hP => hs k t (Nat.lt_succ_of_lt hk) hP))

/-- A loop whose bodies agree on the iterations that run computes the same
state. -/
theorem forLoop_congr {σ : Type} (n : Nat) (body body' : Nat → σ → σ) (s : σ)
    (h : ∀ k t, k < n → body k t = body' k t) : forLoop n body s = forLoop n body' s := by
  induction n with
  | zero => rfl
  | succ m ih =>
    rw [forLoop_succ, forLoop_succ, ih (fun k t hk => h k t (Nat.lt_succ_of_lt hk)),
      h m _ (Nat.lt_succ_self m)]

/-- An accumulating loop computes a finite sum. -/
theorem forLoop_sum (n : Nat) (f : Nat → Int) (a : Int) :
    forLoop n (fun k t => t + f k) a = a + ∑ k in Finset.range n, f k := by
  induction n with
  | zero => simp [forLoop]
  | succ m ih => rw [forLoop_succ, ih, Finset.sum_range_succ]; ring

/-- A loop of stores: every cell written by some iteration holds its target
value at the end, every other cell is untouched.  The target of a cell does not
depend on the iteration that writes it. -/
theorem forLoop_writes {σ X V : Type} (get : σ → X → V) (W : Nat → X → Prop) (tgt : X → V)
    (Inv : Nat → σ → Prop) (n : Nat) (body : Nat → σ → σ) (s0 : σ) (h0 : Inv 0 s0)
    (hstep : ∀ k s, k < n → Inv k s →
      Inv (k + 1) (body k s) ∧ (∀ x, W k x → get (body k s) x = tgt x) ∧
        (∀ x, ¬ W k x → get (body k s) x = get s x)) :
    Inv n (forLoop n body s0) ∧
      (∀ x, (∃ k, k < n ∧ W k x) → get (forLoop n body s0) x = tgt x) ∧
      (∀ x, (∀ k, k < n → ¬ W k x) → get (forLoop n body s0) x = get s0 x) := by
  induction n with
  | zero =>
    refine ⟨h0, ?_, fun x _ => rfl⟩
    rintro x ⟨k, hk, _⟩
    exact absurd hk (Nat.not_lt_zero k)
  | succ m ih =>
    obtain ⟨hI, hw, hf⟩ := ih (fun k s hk hi => hstep k s (Nat.lt_succ_of_lt hk) hi)
    obtain ⟨hI', hw', hf'⟩ := hstep m (forLoop m body s0) (Nat.lt_succ_self m) hI
    rw [forLoop_succ]
    refine ⟨hI', ?_, ?_⟩
    · rintro x ⟨k, hk, hx⟩
      by_cases hm : W m x
      · exact hw' x hm
      · rw [hf' x hm]
        have hkm : k < m := by
          rcases Nat.lt_succ_iff_lt_or_eq.1 hk with h | h
          · exact h
          · subst h; exact absurd hx hm
        exact hw x ⟨k, hkm, hx⟩
    · intro x hx
      rw [hf' x (hx m (Nat.lt_succ_self m))]
      exact hf x (fun k hk => hx k (Nat.lt_succ_of_lt hk))

/-- A property kept by every iteration holds after the loop. -/
theorem forLoop_preserves {σ : Type} (P : σ → Prop) (n : Nat) (body : Nat → σ → σ) (s : σ)
    (h0 : P s) (hs : ∀ k t, k < n → P t → P (body k t)) : P (forLoop n body s) :=
  forLoop_induct (fun _ t => P t) n body s h0 hs

/-- A loop of stores of good values: cells that were good stay good, and every
cell written by some iteration is good at the end. -/
theorem forLoop_cover {σ X : Type} (good : σ → X → Prop) (W : Nat → X → Prop) (n : Nat)
    (body : Nat → σ → σ) (s0 : σ)
    (hstep : ∀ k s, k < n →
      (∀ x, good s x → good (body k s) x) ∧ (∀ x, W k x → good (body k s) x)) :
    (∀ x, good s0 x → good (forLoop n body s0) x) ∧
      (∀ x, (∃ k, k < n ∧ W k x) → good (forLoop n body s0) x) := by
  induction n with
  | zero =>
    refine ⟨fun x hx => hx, ?_⟩
    rintro x ⟨k, hk, _⟩
    exact absurd hk (Nat.not_lt_zero k)
  | succ m ih =>
    obtain ⟨hkeep, hcov⟩ := ih (fun k s hk => hstep k s (Nat.lt_succ_of_lt hk))
    obtain ⟨hkeep', hcov'⟩ := hstep m (forLoop m body s0) (Nat.lt_succ_self m)
    rw [forLoop_succ]
    refine ⟨fun x hx => hkeep' x (hkeep x hx), ?_⟩
    rintro x ⟨k, hk, hx⟩
    rcases Nat.lt_succ_iff_lt_or_eq.1 hk with h | h
    · exact hkeep' x (hcov x ⟨k, h, hx⟩)
    · subst h; exact hcov' x hx

/-! ## Arrays -/

theorem set2_same (a : Nat → Nat → Int) (r c : Nat) (v : Int) : set2 a r c v r c = v := by
  simp [set2]

theorem set2_other (a : Nat → Nat → Int) (r c r' c' : Nat) (v : Int) (h : ¬ (r' = r ∧ c' = c)) :
    set2 a r c v r' c' = a r' c' := by
  simp only [set2, if_neg h]

/-- Two nested loops of stores `a[R i][C j] = v i j` whose value depends on the
cell only: every cell addressed holds its target, every other cell is
untouched. -/
theorem storeGrid (m n : Nat) (R C : Nat → Nat) (tgt v : Nat → Nat → Int)
    (hv : ∀ i j, i < m → j < n → v i j = tgt (R i) (C j)) (a : Nat → Nat → Int) :
    (∀ i j, i < m → j < n →
        forLoop m (fun i t => forLoop n (fun j t => set2 t (R i) (C j) (v i j)) t) a (R i) (C j)
          = tgt (R i) (C j)) ∧
      (∀ r c, (∀ i j, i < m → j < n → ¬ (r = R i ∧ c = C j)) →
        forLoop m (fun i t => forLoop n (fun j t => set2 t (R i) (C j) (v i j)) t) a r c
          = a r c) := by
  have inner : ∀ (i : Nat) (t : Nat → Nat → Int), i < m →
      (∀ x : Nat × Nat, (∃ j, j < n ∧ x = (R i, C j)) →
        forLoop n (fun j t => set2 t (R i) (C j) (v i j)) t x.1 x.2 = tgt x.1 x.2) ∧
      (∀ x : Nat × Nat, (∀ j, j < n → ¬ x = (R i, C j)) →
        forLoop n (fun j t => set2 t (R i) (C j) (v i j)) t x.1 x.2 = t x.1 x.2) := by
    intro i t hi
    refine (forLoop_writes (fun (t : Nat → Nat → Int) (x : Nat × Nat) => t x.1 x.2)
      (fun j x => x = (R i, C j)) (fun x => tgt x.1 x.2) (fun _ _ => True) n
      (fun j t => set2 t (R i) (C j) (v i j)) t trivial ?_).2
    intro k s hk _
    refine ⟨trivial, ?_, ?_⟩
    · rintro x rfl
      simp only [set2_same, hv i k hi hk]
    · rintro ⟨r, c⟩ hx
      exact set2_other _ _ _ _ _ _ (fun h => hx (Prod.ext h.1 h.2))
  have outer := (forLoop_writes (fun (t : Nat → Nat → Int) (x : Nat × Nat) => t x.1 x.2)
      (fun i x => ∃ j, j < n ∧ x = (R i, C j)) (fun x => tgt x.1 x.2) (fun _ _ => True) m
      (fun i t => forLoop n (fun j t => set2 t (R i) (C j) (v i j)) t) a trivial
      (fun k s hk _ => ⟨trivial, (inner k s hk).1, fun x hx => (inner k s hk).2 x
        (fun j hj h => hx ⟨j, hj, h⟩)⟩)).2
  refine ⟨fun i j hi hj => outer.1 (R i, C j) ⟨i, hi, j, hj, rfl⟩, fun r c h => ?_⟩
  refine outer.2 (r, c) ?_
  rintro i hi ⟨j, hj, hx⟩
  exact h i j hi hj ⟨congrArg Prod.fst hx, congrArg Prod.snd hx⟩

/-- After the copy loops the local block holds block `(bi, bj)` of the image,
whatever it held before. -/
theorem copyBlock_cell (image : Image) (bi bj : Nat) (block : Block) (i j : Nat)
    (hi : i < 3) (hj : j < 3) : copyBlock image bi bj block i j = imageBlock image bi bj i j :=
  (storeGrid 3 3 (fun i => i) (fun j => j) (fun r c => image (bi * 3 + r) (bj * 3 + c))
    (fun i j => image (bi * 3 + i) (bj * 3 + j)) (fun _ _ _ _ => rfl) block).1 i j hi hj

/-- The distance loops count the differing cells. -/
theorem blockDistance_eq_sum (a b : Block) :
    blockDistance a b
      = ∑ i in Finset.range 3, ∑ j in Finset.range 3, (if a i j ≠ b i j then (1 : Int) else 0) := by
  have hin : ∀ (i : Nat) (d : Int),
      forLoop 3 (fun j distance => if a i j ≠ b i j then distance + 1 else distance) d
        = d + ∑ j in Finset.range 3, (if a i j ≠ b i j then (1 : Int) else 0) := by
    intro i d
    rw [← forLoop_sum]
    refine forLoop_congr _ _ _ _ (fun k t _ => ?_)
    by_cases h : a i k = b i k <;> simp [h]
  unfold blockDistance
  rw [forLoop_congr 3 _ (fun i d =>
    d + ∑ j in Finset.range 3, (if a i j ≠ b i j then (1 : Int) else 0)) 0 (fun k t _ => hin k t),
    forLoop_sum, zero_add]

theorem blockDistance_eq_hamming (a b : Block) : blockDistance a b = (hamming a b : Int) := by
  rw [blockDistance_eq_sum, hamming, Finset.card_filter, Finset.sum_product]
  push_cast
  rfl

/-- The distance depends on the nine cells of the block only. -/
theorem hamming_congr (a a' b : Block) (h : ∀ i j, i < 3 → j < 3 → a i j = a' i j) :
    hamming a b = hamming a' b := by
  unfold hamming
  congr 1
  refine Finset.filter_congr ?_
  rintro ⟨i, j⟩ hij
  rw [Finset.mem_product, Finset.mem_range, Finset.mem_range] at hij
  simp only [h i j hij.1 hij.2]

theorem hamming_le (a b : Block) : hamming a b ≤ 9 := by
  unfold hamming
  exact (Finset.card_filter_le _ _).trans (by simp)

theorem blockDistance_copyBlock (image : Image) (bi bj : Nat) (block pattern : Block) :
    blockDistance (copyBlock image bi bj block) pattern
      = (hamming (imageBlock image bi bj) pattern : Int) := by
  rw [blockDistance_eq_hamming,
    hamming_congr _ _ _ (fun i j hi hj => copyBlock_cell image bi bj block i j hi hj)]

/-! ## The minimum search -/

/-- The search loop with its index: the final `minDist` is a lower bound of the
start value and of every distance seen; either no pattern beat the start value,
or `bestIndex` is the first index attaining the least distance. -/
theorem searchLoop (d : Nat → Int) (m0 : Int) (n : Nat) :
    (∀ p, p < n → (forLoop n (fun p st => if d p < st.1 then (d p, p) else st) (m0, 0)).1 ≤ d p) ∧
    ((forLoop n (fun p (st : Int × Nat) => if d p < st.1 then (d p, p) else st) (m0, 0)) = (m0, 0) ∨
      ((forLoop n (fun p (st : Int × Nat) => if d p < st.1 then (d p, p) else st) (m0, 0)).2 < n ∧
        (forLoop n (fun p (st : Int × Nat) => if d p < st.1 then (d p, p) else st) (m0, 0)).1
          = d (forLoop n (fun p (st : Int × Nat) => if d p < st.1 then (d p, p) else st) (m0, 0)).2 ∧
        d (forLoop n (fun p (st : Int × Nat) => if d p < st.1 then (d p, p) else st) (m0, 0)).2 < m0 ∧
        ∀ p, p < (forLoop n (fun p (st : Int × Nat) => if d p < st.1 then (d p, p) else st) (m0, 0)).2 →
          d (forLoop n (fun p (st : Int × Nat) => if d p < st.1 then (d p, p) else st) (m0, 0)).2 < d p)) := by
  refine forLoop_induct (fun n (st : Int × Nat) => (∀ p, p < n → st.1 ≤ d p) ∧
    (st = (m0, 0) ∨ (st.2 < n ∧ st.1 = d st.2 ∧ d st.2 < m0 ∧ ∀ p, p < st.2 → d st.2 < d p)))
    n _ (m0, 0) ⟨fun p hp => absurd hp (Nat.not_lt_zero p), Or.inl rfl⟩ ?_
  rintro k ⟨m, b⟩ _ ⟨hlow, hcase⟩
  by_cases hlt : d k < m
  · simp only [if_pos hlt]
    refine ⟨fun p hp => ?_, Or.inr ⟨Nat.lt_succ_self k, trivial, ?_, fun p hp => ?_⟩⟩
    · rcases Nat.lt_succ_iff_lt_or_eq.1 hp with h | h
      · exact le_of_lt (lt_of_lt_of_le hlt (hlow p h))
      · rw [h]
    · rcases hcase with h | h
      · have : m = m0 := congrArg Prod.fst h
        rw [← this]; exact hlt
      · have h1 : m = d b := h.2.1
        rw [h1] at hlt
        exact lt_trans hlt h.2.2.1
    · exact lt_of_lt_of_le hlt (hlow p hp)
  · simp only [if_neg hlt]
    refine ⟨fun p hp => ?_, ?_⟩
    · rcases Nat.lt_succ_iff_lt_or_eq.1 hp with h | h
      · exact hlow p h
      · rw [h]; exact not_lt.1 hlt
    · rcases hcase with h | h
      · exact Or.inl h
      · exact Or.inr ⟨Nat.lt_succ_of_lt h.1, h.2⟩

/-- The loop of `computeImageLoss` finds the same `minDist` as the loop of
`reconstructImage`, which also records the index. -/
theorem minLoop_eq_fst (d : Nat → Int) (m0 : Int) (n : Nat) :
    forLoop n (fun p m => if d p < m then d p else m) m0
      = (forLoop n (fun p (st : Int × Nat) => if d p < st.1 then (d p, p) else st) (m0, 0)).1 := by
  induction n with
  | zero => rfl
  | succ k ih =>
    rw [forLoop_succ, forLoop_succ, ih]
    by_cases h : d k < (forLoop k (fun p (st : Int × Nat) =>
        if d p < st.1 then (d p, p) else st) (m0, 0)).1
    · simp only [if_pos h]
    · simp only [if_neg h]

theorem minDistance_eq_findBest (block : Block) (candidate : Patterns) :
    minDistance block candidate = (findBest block candidate).1 :=
  minLoop_eq_fst (fun p => blockDistance block (candidate p)) _ 7

/-- The index found by `reconstructImage` for a block: it is below 7, its
distance is the least one, and every earlier pattern is strictly farther. -/
theorem findBest_spec (block : Block) (candidate : Patterns) :
    (findBest block candidate).2 < 7 ∧
      (findBest block candidate).1
        = (hamming block (candidate (findBest block candidate).2) : Int) ∧
      (∀ p, p < 7 → hamming block (candidate (findBest block candidate).2)
        ≤ hamming block (candidate p)) ∧
      (∀ p, p < (findBest block candidate).2 →
        hamming block (candidate (findBest block candidate).2) < hamming block (candidate p)) := by
  have h := searchLoop (fun p => blockDistance block (candidate p)) ((3 : Int) * 3 + 1) 7
  change (∀ p, p < 7 → (findBest block candidate).1 ≤ blockDistance block (candidate p)) ∧
    (findBest block candidate = ((3 : Int) * 3 + 1, 0) ∨
      ((findBest block candidate).2 < 7 ∧
        (findBest block candidate).1
          = blockDistance block (candidate (findBest block candidate).2) ∧
        blockDistance block (candidate (findBest block candidate).2) < (3 : Int) * 3 + 1 ∧
        ∀ p, p < (findBest block candidate).2 →
          blockDistance block (candidate (findBest block candidate).2)
            < blockDistance block (candidate p))) at h
  obtain ⟨hlow, hcase⟩ := h
  simp only [blockDistance_eq_hamming] at hlow hcase
  rcases hcase with h0 | ⟨h1, h2, _, h4⟩
  · exfalso
    have h9 := hlow 0 (by norm_num)
    rw [h0] at h9
    have := hamming_le block (candidate 0)
    simp only at h9
    omega
  · refine ⟨h1, h2, fun p hp => ?_, fun p hp => ?_⟩
    · have := hlow p hp
      rw [h2] at this
      exact_mod_cast this
    · exact_mod_cast h4 p hp

theorem minDistance_eq_minHamming (block : Block) (candidate : Patterns) :
    minDistance block candidate = (minHamming block candidate : Int) := by
  obtain ⟨h1, h2, h3, _⟩ := findBest_spec block candidate
  rw [minDistance_eq_findBest, h2]
  congr 1
  unfold minHamming
  refine le_antisymm ?_ ?_
  · exact (Finset.le_inf'_iff _ _).2 (fun p hp => h3 p (Finset.mem_range.1 hp))
  · exact Finset.inf'_le _ (Finset.mem_range.2 h1)

theorem minHamming_congr (a a' : Block) (c : Patterns) (h : ∀ i j, i < 3 → j < 3 → a i j = a' i j) :
    minHamming a c = minHamming a' c := by
  unfold minHamming
  congr 1
  funext p
  exact hamming_congr a a' (c p) h

theorem minHamming_le (b : Block) (c : Patterns) : minHamming b c ≤ 9 :=
  (Finset.inf'_le _ (Finset.mem_range.2 (Nat.succ_pos 6))).trans (hamming_le b (c 0))

/-- Closed form of the loss: the sum over the 64 blocks of the least Hamming
distance to a pattern. -/
theorem computeImageLoss_eq_sum (image : Image) (candidate : Patterns) :
    computeImageLoss image candidate
      = ∑ bi in Finset.range 8, ∑ bj in Finset.range 8,
          (minHamming (imageBlock image bi bj) candidate : Int) := by
  have hblk : ∀ bi bj, minDistance (copyBlock image bi bj (fun _ _ => 0)) candidate
      = (minHamming (imageBlock image bi bj) candidate : Int) := by
    intro bi bj
    rw [minDistance_eq_minHamming,
      minHamming_congr _ _ _ (fun i j hi hj => copyBlock_cell image bi bj _ i j hi hj)]
  unfold computeImageLoss
  have h8 : NUM_BLOCKS = 8 := by decide
  simp only [hblk, forLoop_sum, zero_add, h8]

/-! ## Reconstruction -/

/-- The pattern index that `reconstructImage` selects for block `(bi, bj)`. -/
theorem writeBlock_spec (candidate : Patterns) (k bi bj : Nat) (result : Image) :
    (∀ i j, i < 3 → j < 3 →
      writeBlock candidate k bi bj result (bi * 3 + i) (bj * 3 + j) = candidate k i j) ∧
    (∀ r c, (∀ i j, i < 3 → j < 3 → ¬ (r = bi * 3 + i ∧ c = bj * 3 + j)) →
      writeBlock candidate k bi bj result r c = result r c) := by
  have h := storeGrid 3 3 (fun i => bi * 3 + i) (fun j => bj * 3 + j)
    (fun r c => candidate k (r - bi * 3) (c - bj * 3)) (fun i j => candidate k i j)
    (fun i j _ _ => by simp) result
  refine ⟨fun i j hi hj => ?_, h.2⟩
  have := h.1 i j hi hj
  simp only [Nat.add_sub_cancel_left] at this
  exact this

/-- Every cell of the output of `reconstructImage` is a cell of the pattern
selected for its block, whatever the output array held on entry. -/
theorem reconstructImage_cell (image : Image) (candidate : Patterns) (result : Image)
    (bi bj i j : Nat) (hbi : bi < 8) (hbj : bj < 8) (hi : i < 3) (hj : j < 3) :
    reconstructImage image candidate result (bi * 3 + i) (bj * 3 + j)
      = candidate (findBest (copyBlock image bi bj (fun _ _ => 0)) candidate).2 i j := by
  have inner : ∀ (b : Nat) (t : Image),
      (∀ x : Nat × Nat, (∃ b', b' < 8 ∧ ∃ i j, i < 3 ∧ j < 3 ∧ x = (b * 3 + i, b' * 3 + j)) →
        forLoop 8 (fun bj res => writeBlock candidate
          (findBest (copyBlock image b bj (fun _ _ => 0)) candidate).2 b bj res) t x.1 x.2
          = candidate (findBest (copyBlock image (x.1 / 3) (x.2 / 3) (fun _ _ => 0)) candidate).2
              (x.1 % 3) (x.2 % 3)) ∧
      (∀ x : Nat × Nat, (∀ b', b' < 8 → ¬ ∃ i j, i < 3 ∧ j < 3 ∧ x = (b * 3 + i, b' * 3 + j)) →
        forLoop 8 (fun bj res => writeBlock candidate
          (findBest (copyBlock image b bj (fun _ _ => 0)) candidate).2 b bj res) t x.1 x.2
          = t x.1 x.2) := by
    intro b t
    refine (forLoop_writes (fun (t : Image) (x : Nat × Nat) => t x.1 x.2)
      (fun b' x => ∃ i j, i < 3 ∧ j < 3 ∧ x = (b * 3 + i, b' * 3 + j))
      (fun x => candidate (findBest (copyBlock image (x.1 / 3) (x.2 / 3) (fun _ _ => 0))
        candidate).2 (x.1 % 3) (x.2 % 3)) (fun _ _ => True) 8 _ t trivial ?_).2
    intro k s _ _
    refine ⟨trivial, ?_, ?_⟩
    · rintro x ⟨i, j, hi, hj, rfl⟩
      have e1 : (b * 3 + i) / 3 = b := by omega
      have e2 : (k * 3 + j) / 3 = k := by omega
      have e3 : (b * 3 + i) % 3 = i := by omega
      have e4 : (k * 3 + j) % 3 = j := by omega
      simp only [e1, e2, e3, e4]
      exact (writeBlock_spec candidate _ b k s).1 i j hi hj
    · rintro ⟨r, c⟩ hx
      refine (writeBlock_spec candidate _ b k s).2 r c (fun i j hi hj h => hx ⟨i, j, hi, hj, ?_⟩)
      rw [h.1, h.2]
  have outer := (forLoop_writes (fun (t : Image) (x : Nat × Nat) => t x.1 x.2)
      (fun b x => ∃ b', b' < 8 ∧ ∃ i j, i < 3 ∧ j < 3 ∧ x = (b * 3 + i, b' * 3 + j))
      (fun x => candidate (findBest (copyBlock image (x.1 / 3) (x.2 / 3) (fun _ _ => 0))
        candidate).2 (x.1 % 3) (x.2 % 3)) (fun _ _ => True) 8
      (fun bi res => forLoop 8 (fun bj res => writeBlock candidate
          (findBest (copyBlock image bi bj (fun _ _ => 0)) candidate).2 bi bj res) res)
      result trivial
      (fun k s _ _ => ⟨trivial, (inner k s).1, fun x hx => (inner k s).2 x
        (fun b' hb' h => hx ⟨b', hb', h⟩)⟩)).2.1
  have := outer (bi * 3 + i, bj * 3 + j) ⟨bi, hbi, bj, hbj, i, j, hi, hj, rfl⟩
  have e1 : (bi * 3 + i) / 3 = bi := by omega
  have e2 : (bj * 3 + j) / 3 = bj := by omega
  have e3 : (bi * 3 + i) % 3 = i := by omega
  have e4 : (bj * 3 + j) % 3 = j := by omega
  simp only [e1, e2, e3, e4] at this
  exact this

theorem hamming_congr_right (a b b' : Block) (h : ∀ i j, i < 3 → j < 3 → b i j = b' i j) :
    hamming a b = hamming a b' := by
  unfold hamming
  congr 1
  refine Finset.filter_congr ?_
  rintro ⟨i, j⟩ hij
  rw [Finset.mem_product, Finset.mem_range, Finset.mem_range] at hij
  simp only [h i j hij.1 hij.2]

theorem hamming_eq_sum (a b : Block) :
    hamming a b = ∑ i in Finset.range 3, ∑ j in Finset.range 3, (if a i j ≠ b i j then 1 else 0) := by
  rw [hamming, Finset.card_filter, Finset.sum_product]

/-- The pattern selected for a block attains the least distance of that block. -/
theorem minHamming_eq_selected (image : Image) (candidate : Patterns) (bi bj : Nat) :
    minHamming (imageBlock image bi bj) candidate
      = hamming (imageBlock image bi bj)
          (candidate (findBest (copyBlock image bi bj (fun _ _ => 0)) candidate).2) := by
  have hc : ∀ q : Block, hamming (copyBlock image bi bj (fun _ _ => 0)) q
      = hamming (imageBlock image bi bj) q :=
    fun q => hamming_congr _ _ q (fun i j hi hj => copyBlock_cell image bi bj _ i j hi hj)
  have h1 := minDistance_eq_minHamming (copyBlock image bi bj (fun _ _ => 0)) candidate
  rw [minDistance_eq_findBest, (findBest_spec _ candidate).2.1, hc,
    minHamming_congr _ _ _ (fun i j hi hj => copyBlock_cell image bi bj _ i j hi hj)] at h1
  exact_mod_cast h1.symm

/-- A sum over the 24 rows (or columns) of an image, regrouped by block. -/
theorem sum_range_blocks (f : Nat → Nat) :
    ∑ r in Finset.range 24, f r = ∑ b in Finset.range 8, ∑ i in Finset.range 3, f (b * 3 + i) := by
  simp only [Finset.sum_range_succ, Finset.sum_range_zero]
  ring

/-- A sum over the 576 cells of an image, regrouped by block and cell. -/
theorem sum_cells_blocks (g : Nat → Nat → Nat) :
    ∑ r in Finset.range 24, ∑ c in Finset.range 24, g r c
      = ∑ bi in Finset.range 8, ∑ bj in Finset.range 8,
          ∑ i in Finset.range 3, ∑ j in Finset.range 3, g (bi * 3 + i) (bj * 3 + j) := by
  calc ∑ r in Finset.range 24, ∑ c in Finset.range 24, g r c
      = ∑ r in Finset.range 24, ∑ bj in Finset.range 8, ∑ j in Finset.range 3, g r (bj * 3 + j) :=
        Finset.sum_congr rfl (fun r _ => sum_range_blocks (g r))
    _ = ∑ bi in Finset.range 8, ∑ i in Finset.range 3,
          ∑ bj in Finset.range 8, ∑ j in Finset.range 3, g (bi * 3 + i) (bj * 3 + j) :=
        sum_range_blocks (fun r => ∑ bj in Finset.range 8, ∑ j in Finset.range 3, g r (bj * 3 + j))
    _ = ∑ bi in Finset.range 8, ∑ bj in Finset.range 8,
          ∑ i in Finset.range 3, ∑ j in Finset.range 3, g (bi * 3 + i) (bj * 3 + j) :=
        Finset.sum_congr rfl (fun bi _ => Finset.sum_comm)

/-! ## Properties of the loss and of the reconstruction -/

/-- C1: for every image and every set of seven patterns, `computeImageLoss` is
the sum over the 64 blocks `(bi, bj)` of the least Hamming distance between the
block and a pattern; that least distance is attained by one of the seven
patterns and is a lower bound of the distance to each of them. -/
theorem computeImageLoss_sum_of_block_minima (image : Image) (candidate : Patterns) :
    computeImageLoss image candidate
        = ∑ bi in Finset.range 8, ∑ bj in Finset.range 8,
            (minHamming (imageBlock image bi bj) candidate : Int) ∧
      ∀ b : Block, (∃ p, p < 7 ∧ minHamming b candidate = hamming b (candidate p)) ∧
        ∀ p, p < 7 → minHamming b candidate ≤ hamming b (candidate p) := by
  refine ⟨computeImageLoss_eq_sum image candidate, fun b => ⟨?_, fun p hp => ?_⟩⟩
  · obtain ⟨p, hp, h⟩ := Finset.exists_mem_eq_inf' (s := Finset.range 7)
      ⟨0, Finset.mem_range.2 (Nat.succ_pos 6)⟩ (fun p => hamming b (candidate p))
    exact ⟨p, Finset.mem_range.1 hp, h⟩
  · exact Finset.inf'_le _ (Finset.mem_range.2 hp)

/-- C2: the loss equals the sum over the 64 blocks of the Hamming distance
between the block of the image and the same block of the reconstructed image,
and equals the number of the 576 cells in which the two images differ. -/
theorem computeImageLoss_eq_reconstruction_error (image : Image) (candidate : Patterns)
    (result : Image) :
    computeImageLoss image candidate
        = ∑ bi in Finset.range 8, ∑ bj in Finset.range 8,
            (hamming (imageBlock image bi bj)
              (imageBlock (reconstructImage image candidate result) bi bj) : Int) ∧
      computeImageLoss image candidate
        = (((Finset.range 24 ×ˢ Finset.range 24).filter
            (fun rc => image rc.1 rc.2 ≠ reconstructImage image candidate result rc.1 rc.2)).card
            : Int) := by
  have hblock : ∀ bi bj, bi < 8 → bj < 8 →
      minHamming (imageBlock image bi bj) candidate
        = hamming (imageBlock image bi bj)
            (imageBlock (reconstructImage image candidate result) bi bj) := by
    intro bi bj hbi hbj
    rw [minHamming_eq_selected]
    exact hamming_congr_right _ _ _ (fun i j hi hj =>
      (reconstructImage_cell image candidate result bi bj i j hbi hbj hi hj).symm)
  have hsum : computeImageLoss image candidate
      = ∑ bi in Finset.range 8, ∑ bj in Finset.range 8,
          (hamming (imageBlock image bi bj)
            (imageBlock (reconstructImage image candidate result) bi bj) : Int) := by
    rw [computeImageLoss_eq_sum]
    refine Finset.sum_congr rfl (fun bi hbi => Finset.sum_congr rfl (fun bj hbj => ?_))
    rw [hblock bi bj (Finset.mem_range.1 hbi) (Finset.mem_range.1 hbj)]
  refine ⟨hsum, ?_⟩
  rw [hsum, Finset.card_filter, Finset.sum_product, sum_cells_blocks]
  push_cast
  refine Finset.sum_congr rfl (fun bi _ => Finset.sum_congr rfl (fun bj _ => ?_))
  rw [hamming_eq_sum]
  push_cast
  rfl

/-- C3: for each block `(bi, bj)` there is a pattern index `k` below 7 whose
Hamming distance to the block of the image is the least one and strictly less
than that of every earlier pattern, and `reconstructImage` stores pattern `k` in
all nine cells of the block of the output, whatever the output held before:
every cell `(r, c)` of block `(r / 3, c / 3)` holds cell `(r % 3, c % 3)` of
pattern `k`, and the 64 blocks make up all 576 cells. -/
theorem reconstructImage_writes_first_best (image : Image) (candidate : Patterns)
    (bi bj : Nat) (hbi : bi < 8) (hbj : bj < 8) :
    ∃ k, k < 7 ∧
      (∀ p, p < 7 → hamming (imageBlock image bi bj) (candidate k)
        ≤ hamming (imageBlock image bi bj) (candidate p)) ∧
      (∀ p, p < k → hamming (imageBlock image bi bj) (candidate k)
        < hamming (imageBlock image bi bj) (candidate p)) ∧
      (∀ (result : Image) (i j : Nat), i < 3 → j < 3 →
        reconstructImage image candidate result (bi * 3 + i) (bj * 3 + j) = candidate k i j) ∧
      ∀ (result : Image) (r c : Nat), r / 3 = bi → c / 3 = bj →
        reconstructImage image candidate result r c = candidate k (r % 3) (c % 3) := by
  have hc : ∀ q : Block, hamming (copyBlock image bi bj (fun _ _ => 0)) q
      = hamming (imageBlock image bi bj) q :=
    fun q => hamming_congr _ _ q (fun i j hi hj => copyBlock_cell image bi bj _ i j hi hj)
  obtain ⟨h1, _, h3, h4⟩ := findBest_spec (copyBlock image bi bj (fun _ _ => 0)) candidate
  simp only [hc] at h3 h4
  refine ⟨_, h1, h3, h4, fun result i j hi hj =>
    reconstructImage_cell image candidate result bi bj i j hbi hbj hi hj, ?_⟩
  intro result r c hr hcol
  have er : r = bi * 3 + r % 3 := by omega
  have ec : c = bj * 3 + c % 3 := by omega
  have h := reconstructImage_cell image candidate result bi bj (r % 3) (c % 3) hbi hbj
    (Nat.mod_lt r (by decide)) (Nat.mod_lt c (by decide))
  rw [← er, ← ec] at h
  exact h

/-- Block (1, 2) of the reconstruction of the sample image. -/
theorem reconstructImage_writes_first_best_witness :
    (1 < 8 ∧ 2 < 8) ∧
    ∃ k, k < 7 ∧
      (∀ p, p < 7 → hamming (imageBlock sampleImage 1 2) (samplePatterns k)
        ≤ hamming (imageBlock sampleImage 1 2) (samplePatterns p)) ∧
      (∀ p, p < k → hamming (imageBlock sampleImage 1 2) (samplePatterns k)
        < hamming (imageBlock sampleImage 1 2) (samplePatterns p)) ∧
      (∀ (result : Image) (i j : Nat), i < 3 → j < 3 →
        reconstructImage sampleImage samplePatterns result (1 * 3 + i) (2 * 3 + j)
          = samplePatterns k i j) ∧
      ∀ (result : Image) (r c : Nat), r / 3 = 1 → c / 3 = 2 →
        reconstructImage sampleImage samplePatterns result r c = samplePatterns k (r % 3) (c % 3) :=
  ⟨⟨by decide, by decide⟩,
    reconstructImage_writes_first_best sampleImage samplePatterns 1 2 (by decide) (by decide)⟩

/-- C4: the loss of any image against any candidate, whatever integers their
cells hold, lies between 0 and 576. -/
theorem computeImageLoss_bounds (image : Image) (candidate : Patterns) :
    0 ≤ computeImageLoss image candidate ∧
      computeImageLoss image candidate
        ≤ ((NUM_BLOCKS * NUM_BLOCKS * (BLOCK_SIZE * BLOCK_SIZE) : Nat) : Int) ∧
      NUM_BLOCKS * NUM_BLOCKS * (BLOCK_SIZE * BLOCK_SIZE) = 576 := by
  rw [computeImageLoss_eq_sum]
  refine ⟨?_, ?_, by decide⟩
  · exact Finset.sum_nonneg (fun bi _ => Finset.sum_nonneg (fun bj _ => Int.natCast_nonneg _))
  · have h : ∀ bi bj, (minHamming (imageBlock image bi bj) candidate : Int) ≤ 9 :=
      fun bi bj => by exact_mod_cast minHamming_le _ candidate
    calc ∑ bi in Finset.range 8, ∑ bj in Finset.range 8,
            (minHamming (imageBlock image bi bj) candidate : Int)
        ≤ ∑ _bi in Finset.range 8, ∑ _bj in Finset.range 8, (9 : Int) :=
          Finset.sum_le_sum (fun bi _ => Finset.sum_le_sum (fun bj _ => h bi bj))
      _ = ((NUM_BLOCKS * NUM_BLOCKS * (BLOCK_SIZE * BLOCK_SIZE) : Nat) : Int) := by
          simp

/-! ## Evaluation -/

theorem totalLossOf_eq_sum (images : Nat → Image) (patterns : Patterns) :
    totalLossOf images patterns
      = ∑ img in Finset.range 5, computeImageLoss (images img) patterns := by
  unfold totalLossOf
  rw [forLoop_sum, zero_add]

theorem totalLossOf_bounds (images : Nat → Image) (patterns : Patterns) :
    0 ≤ totalLossOf images patterns ∧ totalLossOf images patterns ≤ 2880 := by
  rw [totalLossOf_eq_sum]
  have hb : ∀ img, 0 ≤ computeImageLoss (images img) patterns ∧
      computeImageLoss (images img) patterns ≤ 576 := by
    intro img
    rw [computeImageLoss_eq_sum]
    refine ⟨Finset.sum_nonneg (fun bi _ => Finset.sum_nonneg (fun bj _ => Int.natCast_nonneg _)), ?_⟩
    have h : ∀ bi bj, (minHamming (imageBlock (images img) bi bj) patterns : Int) ≤ 9 :=
      fun bi bj => by exact_mod_cast minHamming_le _ patterns
    calc ∑ bi in Finset.range 8, ∑ bj in Finset.range 8,
            (minHamming (imageBlock (images img) bi bj) patterns : Int)
        ≤ ∑ _bi in Finset.range 8, ∑ _bj in Finset.range 8, (9 : Int) :=
          Finset.sum_le_sum (fun bi _ => Finset.sum_le_sum (fun bj _ => h bi bj))
      _ = 576 := by simp
  refine ⟨Finset.sum_nonneg (fun img _ => (hb img).1), ?_⟩
  calc ∑ img in Finset.range 5, computeImageLoss (images img) patterns
      ≤ ∑ _img in Finset.range 5, (576 : Int) := Finset.sum_le_sum (fun img _ => (hb img).2)
    _ = 2880 := by simp

/-- Slot by slot description of `evaluatePopulation`. -/
theorem evaluatePopulation_apply (population : Nat → Candidate) (popSize : Nat)
    (images : Nat → Image) (i : Nat) :
    evaluatePopulation population popSize images i
      = if i < popSize then
          Candidate.mk (population i).patterns (totalLossOf images (population i).patterns)
        else population i := by
  induction popSize with
  | zero => simp [evaluatePopulation, forLoop]
  | succ n ih =>
    unfold evaluatePopulation at ih ⊢
    rw [forLoop_succ]
    by_cases h : i = n
    · subst h
      rw [Function.update_same, if_pos (Nat.lt_succ_self i)]
      have := ih
      rw [if_neg (Nat.lt_irrefl i)] at this
      rw [this]
    · rw [Function.update_noteq h, ih]
      by_cases h2 : i < n
      · rw [if_pos h2, if_pos (Nat.lt_succ_of_lt h2)]
      · rw [if_neg h2, if_neg (by omega)]

theorem evaluatePopulation_patterns (population : Nat → Candidate) (popSize : Nat)
    (images : Nat → Image) (i : Nat) :
    (evaluatePopulation population popSize images i).patterns = (population i).patterns := by
  rw [evaluatePopulation_apply]
  by_cases h : i < popSize
  · rw [if_pos h]
  · rw [if_neg h]

theorem evaluatePopulation_fitness (population : Nat → Candidate) (popSize : Nat)
    (images : Nat → Image) (i : Nat) (h : i < popSize) :
    (evaluatePopulation population popSize images i).fitness
      = totalLossOf images (population i).patterns := by
  rw [evaluatePopulation_apply, if_pos h]

/-- C7: after `evaluatePopulation` the fitness of each candidate `i` below
`popSize` is the sum over the five images of `computeImageLoss` of the image
against the patterns of that candidate, a value in which the earlier fitness
does not occur; the patterns of every candidate are unchanged, and so are the
candidates from `popSize` on. -/
theorem evaluatePopulation_sets_total_loss (population : Nat → Candidate) (popSize : Nat)
    (images : Nat → Image) :
    (∀ i, i < popSize →
      (evaluatePopulation population popSize images i).fitness
        = ∑ img in Finset.range NUM_IMAGES, computeImageLoss (images img) (population i).patterns) ∧
    (∀ i, (evaluatePopulation population popSize images i).patterns = (population i).patterns) ∧
    (∀ i, popSize ≤ i → evaluatePopulation population popSize images i = population i) := by
  refine ⟨fun i hi => ?_, fun i => evaluatePopulation_patterns population popSize images i,
    fun i hi => ?_⟩
  · rw [evaluatePopulation_fitness population popSize images i hi, totalLossOf_eq_sum]
  · rw [evaluatePopulation_apply, if_neg (by omega)]

/-! ## Tournament selection -/

/-- The generator after a tournament: three draws have been consumed. -/
theorem tournamentSelection_rng (population : Nat → Candidate) (popSize : Nat) (best : Candidate)
    (g : Rng) :
    (tournamentSelection population popSize best g).2 = Rng.mk g.stream (g.pos + 3) := by
  simp only [tournamentSelection, forLoop, rand]
  split_ifs <;> rfl

/-- The winner of a tournament over a population whose fitnesses are below the
start value: the first of the three drawn candidates with the least fitness. -/
theorem tournamentSelection_spec (population : Nat → Candidate) (popSize : Nat) (best : Candidate)
    (g : Rng) (hpos : 0 < popSize)
    (hfit : ∀ i, i < popSize → (population i).fitness < 1000000000) :
    ∃ k, k < 3 ∧
      (tournamentSelection population popSize best g).1
        = population (g.stream (g.pos + k) % popSize) ∧
      (∀ m, m < 3 → (population (g.stream (g.pos + k) % popSize)).fitness
        ≤ (population (g.stream (g.pos + m) % popSize)).fitness) ∧
      (∀ m, m < k → (population (g.stream (g.pos + k) % popSize)).fitness
        < (population (g.stream (g.pos + m) % popSize)).fitness) := by
  have h0 := hfit (g.stream (g.pos + 0) % popSize) (Nat.mod_lt _ hpos)
  have all3 : ∀ (P : Nat → Prop), P 0 → P 1 → P 2 → ∀ m, m < 3 → P m := by
    intro P p0 p1 p2 m hm
    interval_cases m
    · exact p0
    · exact p1
    · exact p2
  simp only [tournamentSelection, forLoop, rand]
  simp only [Nat.add_zero] at h0
  rw [if_pos h0]
  simp only [Nat.add_assoc, Nat.reduceAdd]
  by_cases h1 : (population (g.stream (g.pos + 1) % popSize)).fitness
      < (population (g.stream g.pos % popSize)).fitness
  · rw [if_pos h1]
    by_cases h2 : (population (g.stream (g.pos + 2) % popSize)).fitness
        < (population (g.stream (g.pos + 1) % popSize)).fitness
    · rw [if_pos h2]
      refine ⟨2, by norm_num, rfl, all3 _ ?_ ?_ ?_, fun m hm => ?_⟩
      · exact le_of_lt (lt_trans h2 h1)
      · exact le_of_lt h2
      · exact le_refl _
      · interval_cases m
        · exact lt_trans h2 h1
        · exact h2
    · rw [if_neg h2]
      refine ⟨1, by norm_num, rfl, all3 _ ?_ ?_ ?_, fun m hm => ?_⟩
      · exact le_of_lt h1
      · exact le_refl _
      · exact not_lt.1 h2
      · interval_cases m
        exact h1
  · rw [if_neg h1]
    by_cases h2 : (population (g.stream (g.pos + 2) % popSize)).fitness
        < (population (g.stream g.pos % popSize)).fitness
    · rw [if_pos h2]
      refine ⟨2, by norm_num, rfl, all3 _ ?_ ?_ ?_, fun m hm => ?_⟩
      · exact le_of_lt h2
      · exact le_trans (le_of_lt h2) (not_lt.1 h1)
      · exact le_refl _
      · interval_cases m
        · exact h2
        · exact lt_of_lt_of_le h2 (not_lt.1 h1)
    · rw [if_neg h2]
      refine ⟨0, by norm_num, rfl, all3 _ ?_ ?_ ?_, fun m hm => ?_⟩
      · exact le_refl _
      · exact not_lt.1 h1
      · exact not_lt.1 h2
      · exact absurd hm (Nat.not_lt_zero m)

/-- C6: for a population of size at least 1 whose fitnesses are all below
10^9 and the three draws `r 0`, `r 1`, `r 2` read from the generator,
`tournamentSelection` returns `population[r k % popSize]` for a `k` such that
this candidate has the least fitness among the three drawn candidates and a
strictly lower fitness than every candidate drawn before it; the contents of
the uninitialised local do not matter. -/
theorem tournamentSelection_returns_first_fittest (population : Nat → Candidate) (popSize : Nat)
    (best : Candidate) (g : Rng) (hpos : 1 ≤ popSize)
    (hfit : ∀ i, i < popSize → (population i).fitness < 10 ^ 9) :
    ∃ k, k < 3 ∧
      (tournamentSelection population popSize best g).1
        = population (g.stream (g.pos + k) % popSize) ∧
      (∀ m, m < 3 → (population (g.stream (g.pos + k) % popSize)).fitness
        ≤ (population (g.stream (g.pos + m) % popSize)).fitness) ∧
      (∀ m, m < k → (population (g.stream (g.pos + k) % popSize)).fitness
        < (population (g.stream (g.pos + m) % popSize)).fitness) :=
  tournamentSelection_spec population popSize best g hpos
    (fun i hi => by have := hfit i hi; norm_num at this; exact this)

/-- A tournament over the first three sample candidates. -/
theorem tournamentSelection_returns_first_fittest_witness :
    (1 ≤ 3 ∧ ∀ i, i < 3 → (samplePopulation i).fitness < 10 ^ 9) ∧
    ∃ k, k < 3 ∧
      (tournamentSelection samplePopulation 3 (samplePopulation 7) sampleRng).1
        = samplePopulation (sampleRng.stream (sampleRng.pos + k) % 3) ∧
      (∀ m, m < 3 → (samplePopulation (sampleRng.stream (sampleRng.pos + k) % 3)).fitness
        ≤ (samplePopulation (sampleRng.stream (sampleRng.pos + m) % 3)).fitness) ∧
      (∀ m, m < k → (samplePopulation (sampleRng.stream (sampleRng.pos + k) % 3)).fitness
        < (samplePopulation (sampleRng.stream (sampleRng.pos + m) % 3)).fitness) :=
  have hfit : ∀ i, i < 3 → (samplePopulation i).fitness < 10 ^ 9 := by
    intro i hi
    show 10 * (i : Int) < 10 ^ 9
    norm_num
    omega
  ⟨⟨by decide, hfit⟩,
    tournamentSelection_returns_first_fittest samplePopulation 3 (samplePopulation 7) sampleRng
      (by decide) hfit⟩

/-! ## Crossover -/

theorem copySlot_fitness (p : Nat) (source child : Candidate) :
    (copySlot p source child).fitness = child.fitness := rfl

/-- The copy loops of `crossover` overwrite the nine cells of slot `p` and
nothing else. -/
theorem copySlot_patterns (p : Nat) (source child : Candidate) (q i j : Nat) :
    (copySlot p source child).patterns q i j
      = if q = p ∧ i < 3 ∧ j < 3 then source.patterns p i j else child.patterns q i j := by
  by_cases h : q = p ∧ i < 3 ∧ j < 3
  · obtain ⟨rfl, hi, hj⟩ := h
    interval_cases i <;> interval_cases j <;> simp [copySlot, forLoop, set3]
  · rw [if_neg h]
    simp only [copySlot, forLoop, set3]
    split_ifs <;> first | rfl | (exfalso; omega)

/-- Slot by slot description of the child built by `crossover`. -/
theorem crossover_spec (child parent1 parent2 : Candidate) (g : Rng) :
    (crossover child parent1 parent2 g).2 = Rng.mk g.stream (g.pos + 7) ∧
    (∀ p i j, p < 7 → i < 3 → j < 3 →
      (crossover child parent1 parent2 g).1.patterns p i j
        = (if g.stream (g.pos + p) % 2 = 0 then parent1 else parent2).patterns p i j) ∧
    (∀ p i j, ¬ (p < 7 ∧ i < 3 ∧ j < 3) →
      (crossover child parent1 parent2 g).1.patterns p i j = child.patterns p i j) := by
  have h := forLoop_writes
    (fun (st : Candidate × Rng) (x : Nat × Nat × Nat) => st.1.patterns x.1 x.2.1 x.2.2)
    (fun p x => x.1 = p ∧ x.2.1 < 3 ∧ x.2.2 < 3)
    (fun x => (if g.stream (g.pos + x.1) % 2 = 0 then parent1 else parent2).patterns
      x.1 x.2.1 x.2.2)
    (fun k st => st.2 = Rng.mk g.stream (g.pos + k)) 7
    (fun p (st : Candidate × Rng) =>
      (copySlot p (if (rand st.2).1 % 2 = 0 then parent1 else parent2) st.1, (rand st.2).2))
    (child, g) rfl
    (by
      rintro k ⟨c, r⟩ _ hr
      simp only at hr
      subst hr
      refine ⟨rfl, ?_, ?_⟩
      · rintro ⟨q, i, j⟩ hx
        simp only at hx
        obtain ⟨rfl, hi, hj⟩ := hx
        simp only [copySlot_patterns, rand]
        rw [if_pos ⟨trivial, hi, hj⟩]
      · rintro ⟨q, i, j⟩ hx
        simp only at hx
        simp only [copySlot_patterns, if_neg hx])
  refine ⟨h.1, fun p i j hp hi hj => h.2.1 (p, i, j) ⟨p, hp, rfl, hi, hj⟩, fun p i j hx => ?_⟩
  refine h.2.2 (p, i, j) (fun k hk hk' => hx ⟨?_, hk'.2⟩)
  have e : p = k := hk'.1
  rw [e]; exact hk

/-- C5: each of the seven slots of the child built by `crossover` is, in all
nine cells, slot `p` of `parent1` when the draw number `p` is even and slot `p`
of `parent2` otherwise; so it is cell for cell the slot of one of the two
parents, whatever the child held before. -/
theorem crossover_copies_whole_slots (child parent1 parent2 : Candidate) (g : Rng) (p : Nat)
    (hp : p < NUM_PATTERNS) :
    (g.stream (g.pos + p) % 2 = 0 → ∀ i j, i < 3 → j < 3 →
      (crossover child parent1 parent2 g).1.patterns p i j = parent1.patterns p i j) ∧
    (g.stream (g.pos + p) % 2 ≠ 0 → ∀ i j, i < 3 → j < 3 →
      (crossover child parent1 parent2 g).1.patterns p i j = parent2.patterns p i j) ∧
    ((∀ i j, i < 3 → j < 3 →
        (crossover child parent1 parent2 g).1.patterns p i j = parent1.patterns p i j) ∨
      (∀ i j, i < 3 → j < 3 →
        (crossover child parent1 parent2 g).1.patterns p i j = parent2.patterns p i j)) := by
  have h := (crossover_spec child parent1 parent2 g).2.1
  have e : g.stream (g.pos + p) % 2 = 0 → ∀ i j, i < 3 → j < 3 →
      (crossover child parent1 parent2 g).1.patterns p i j = parent1.patterns p i j := by
    intro hev i j hi hj
    rw [h p i j hp hi hj, if_pos hev]
  have o : g.stream (g.pos + p) % 2 ≠ 0 → ∀ i j, i < 3 → j < 3 →
      (crossover child parent1 parent2 g).1.patterns p i j = parent2.patterns p i j := by
    intro hod i j hi hj
    rw [h p i j hp hi hj, if_neg hod]
  refine ⟨e, o, ?_⟩
  by_cases hev : g.stream (g.pos + p) % 2 = 0
  · exact Or.inl (e hev)
  · exact Or.inr (o hev)

/-- Slot 1 of a child of two sample candidates: the draw number 1 is 4, which
is even, so the slot comes from the first parent. -/
theorem crossover_copies_whole_slots_witness :
    1 < NUM_PATTERNS ∧ sampleRng.stream (sampleRng.pos + 1) % 2 = 0 ∧
    ∀ i j, i < 3 → j < 3 →
      (crossover (samplePopulation 0) (samplePopulation 1) (samplePopulation 2) sampleRng).1.patterns
          1 i j
        = (samplePopulation 1).patterns 1 i j :=
  ⟨by decide, by decide,
    (crossover_copies_whole_slots (samplePopulation 0) (samplePopulation 1) (samplePopulation 2)
      sampleRng 1 (by decide)).1 (by decide)⟩

/-! ## The elite and the report -/

/-- The linear scan returns the first candidate of least fitness. -/
theorem selectBest_spec (population : Nat → Candidate) (popSize : Nat) (hpos : 0 < popSize) :
    ∃ b, b < popSize ∧ selectBest population popSize = population b ∧
      (∀ i, i < popSize → (population b).fitness ≤ (population i).fitness) ∧
      (∀ i, i < b → (population b).fitness < (population i).fitness) := by
  have h := forLoop_induct
    (fun n (best : Candidate) => ∃ b, b < n + 1 ∧ best = population b ∧
      (∀ i, i < n + 1 → (population b).fitness ≤ (population i).fitness) ∧
      (∀ i, i < b → (population b).fitness < (population i).fitness))
    (popSize - 1)
    (fun k best =>
      if (population (k + 1)).fitness < best.fitness then population (k + 1) else best)
    (population 0)
    ⟨0, Nat.zero_lt_one, rfl, fun i hi => by
      have : i = 0 := by omega
      rw [this], fun i hi => absurd hi (Nat.not_lt_zero i)⟩
    (by
      rintro k best _ ⟨b, hb, rfl, hle, hlt⟩
      by_cases hc : (population (k + 1)).fitness < (population b).fitness
      · simp only [if_pos hc]
        refine ⟨k + 1, Nat.lt_succ_self _, rfl, fun i hi => ?_, fun i hi => ?_⟩
        · rcases Nat.lt_succ_iff_lt_or_eq.1 hi with h | h
          · exact le_of_lt (lt_of_lt_of_le hc (hle i h))
          · rw [h]
        · exact lt_of_lt_of_le hc (hle i hi)
      · simp only [if_neg hc]
        refine ⟨b, Nat.lt_succ_of_lt hb, rfl, fun i hi => ?_, hlt⟩
        rcases Nat.lt_succ_iff_lt_or_eq.1 hi with h | h
        · exact hle i h
        · rw [h]; exact not_lt.1 hc)
  have e : popSize - 1 + 1 = popSize := Nat.sub_add_cancel hpos
  simp only [e] at h
  exact h

/-- In the elitist branch the children are stored from slot 1 on, so slot 0
still holds the elite when the new population is complete. -/
theorem buildNewPopulation_elite (method : Nat) (flips : Nat → Bool)
    (population : Nat → Candidate) (popSize : Nat) (newPopulation : Nat → Candidate)
    (uninit : Candidate) (g : Rng) (hm : method ≠ 0) :
    (buildNewPopulation method flips population popSize newPopulation uninit g).1 0
      = selectBest population popSize := by
  unfold buildNewPopulation
  rw [if_neg hm]
  refine forLoop_induct (fun _ (st : (Nat → Candidate) × Rng) =>
    st.1 0 = selectBest population popSize) _ _ _ ?_ ?_
  · exact Function.update_same 0 (selectBest population popSize) newPopulation
  · intro k st _ h
    simp only
    rw [Function.update_noteq (Nat.succ_ne_zero k).symm]
    exact h

/-- The loop of the report: least fitness and sum of the fitnesses. -/
theorem reportLoop_spec (population : Nat → Candidate) (n : Nat) :
    (forLoop n (fun i (st : Int × Int) =>
        (if (population i).fitness < st.1 then (population i).fitness else st.1,
          st.2 + (population i).fitness)) ((population 0).fitness, 0)).2
        = ∑ i in Finset.range n, (population i).fitness ∧
    (∀ i, i < n → (forLoop n (fun i (st : Int × Int) =>
        (if (population i).fitness < st.1 then (population i).fitness else st.1,
          st.2 + (population i).fitness)) ((population 0).fitness, 0)).1
        ≤ (population i).fitness) ∧
    ((forLoop n (fun i (st : Int × Int) =>
        (if (population i).fitness < st.1 then (population i).fitness else st.1,
          st.2 + (population i).fitness)) ((population 0).fitness, 0)).1
        = (population 0).fitness ∨
      ∃ i, i < n ∧ (forLoop n (fun i (st : Int × Int) =>
        (if (population i).fitness < st.1 then (population i).fitness else st.1,
          st.2 + (population i).fitness)) ((population 0).fitness, 0)).1
        = (population i).fitness) := by
  refine forLoop_induct (fun n (st : Int × Int) =>
    st.2 = ∑ i in Finset.range n, (population i).fitness ∧
    (∀ i, i < n → st.1 ≤ (population i).fitness) ∧
    (st.1 = (population 0).fitness ∨ ∃ i, i < n ∧ st.1 = (population i).fitness))
    n _ _ ⟨by simp, fun i hi => absurd hi (Nat.not_lt_zero i), Or.inl rfl⟩ ?_
  rintro k ⟨m, t⟩ _ ⟨hsum, hle, hex⟩
  simp only at hsum hle hex
  refine ⟨by simp only [Finset.sum_range_succ, hsum], ?_, ?_⟩
  · intro i hi
    by_cases hc : (population k).fitness < m
    · simp only [if_pos hc]
      rcases Nat.lt_succ_iff_lt_or_eq.1 hi with h | h
      · exact le_of_lt (lt_of_lt_of_le hc (hle i h))
      · rw [h]
    · simp only [if_neg hc]
      rcases Nat.lt_succ_iff_lt_or_eq.1 hi with h | h
      · exact hle i h
      · rw [h]; exact not_lt.1 hc
  · by_cases hc : (population k).fitness < m
    · simp only [if_pos hc]
      exact Or.inr ⟨k, Nat.lt_succ_self k, rfl⟩
    · simp only [if_neg hc]
      rcases hex with h | ⟨i, hi, h⟩
      · exact Or.inl h
      · exact Or.inr ⟨i, Nat.lt_succ_of_lt hi, h⟩

/-- C8: in the elitist branch (`method` different from 0), for a population of
generation N whose fitnesses are the summed losses of its patterns, there is a
first index `b` of least fitness; slot 0 of the new population is a copy of
`population[b]`, so its fitness before re-evaluation is that least fitness, and
after `evaluatePopulation` slot 0 has the same patterns and the same fitness. -/
theorem elitist_slot_zero_keeps_minimum (method : Nat) (flips : Nat → Bool)
    (images : Nat → Image) (popSize : Nat) (population newPopulation : Nat → Candidate)
    (uninit : Candidate) (g : Rng) (hm : method ≠ 0) (hpos : 0 < popSize)
    (heval : ∀ i, i < popSize → (population i).fitness
      = ∑ img in Finset.range NUM_IMAGES, computeImageLoss (images img) (population i).patterns) :
    ∃ b, b < popSize ∧
      (∀ i, i < popSize → (population b).fitness ≤ (population i).fitness) ∧
      (∀ i, i < b → (population b).fitness < (population i).fitness) ∧
      (buildNewPopulation method flips population popSize newPopulation uninit g).1 0
        = population b ∧
      ((buildNewPopulation method flips population popSize newPopulation uninit g).1 0).fitness
        = (population b).fitness ∧
      ((generationStep method flips images popSize newPopulation uninit (population, g)).1 0).patterns
        = (population b).patterns ∧
      ((generationStep method flips images popSize newPopulation uninit (population, g)).1 0).fitness
        = (population b).fitness := by
  obtain ⟨b, hb, hsel, hle, hlt⟩ := selectBest_spec population popSize hpos
  have hslot := buildNewPopulation_elite method flips population popSize newPopulation uninit g hm
  rw [hsel] at hslot
  refine ⟨b, hb, hle, hlt, hslot, by rw [hslot], ?_, ?_⟩
  · simp only [generationStep]
    rw [evaluatePopulation_patterns]
    simp only [copyPopulation, if_pos hpos, hslot]
  · simp only [generationStep]
    rw [evaluatePopulation_fitness _ _ _ 0 hpos]
    simp only [copyPopulation, if_pos hpos, hslot]
    rw [totalLossOf_eq_sum, heval b hb]

/-- The elitist step on the evaluated sample population of size 2. -/
theorem elitist_slot_zero_keeps_minimum_witness :
    ((1 : Nat) ≠ 0 ∧ 0 < 2 ∧
      ∀ i, i < 2 → (sampleEvaluated i).fitness
        = ∑ img in Finset.range NUM_IMAGES,
            computeImageLoss ((fun _ => sampleImage) img) (sampleEvaluated i).patterns) ∧
    ∃ b, b < 2 ∧
      (∀ i, i < 2 → (sampleEvaluated b).fitness ≤ (sampleEvaluated i).fitness) ∧
      (∀ i, i < b → (sampleEvaluated b).fitness < (sampleEvaluated i).fitness) ∧
      (buildNewPopulation 1 (fun r => decide (r % 20 = 0)) sampleEvaluated 2 samplePopulation
          (samplePopulation 7) sampleRng).1 0 = sampleEvaluated b ∧
      ((buildNewPopulation 1 (fun r => decide (r % 20 = 0)) sampleEvaluated 2 samplePopulation
          (samplePopulation 7) sampleRng).1 0).fitness = (sampleEvaluated b).fitness ∧
      ((generationStep 1 (fun r => decide (r % 20 = 0)) (fun _ => sampleImage) 2 samplePopulation
          (samplePopulation 7) (sampleEvaluated, sampleRng)).1 0).patterns
        = (sampleEvaluated b).patterns ∧
      ((generationStep 1 (fun r => decide (r % 20 = 0)) (fun _ => sampleImage) 2 samplePopulation
          (samplePopulation 7) (sampleEvaluated, sampleRng)).1 0).fitness
        = (sampleEvaluated b).fitness :=
  have heval : ∀ i, i < 2 → (sampleEvaluated i).fitness
      = ∑ img in Finset.range NUM_IMAGES,
          computeImageLoss ((fun _ => sampleImage) img) (sampleEvaluated i).patterns := by
    intro i hi
    unfold sampleEvaluated
    rw [evaluatePopulation_fitness _ _ _ i hi, totalLossOf_eq_sum, evaluatePopulation_patterns]
  ⟨⟨by decide, by decide, heval⟩,
    elitist_slot_zero_keeps_minimum 1 (fun r => decide (r % 20 = 0)) (fun _ => sampleImage) 2
      sampleEvaluated samplePopulation (samplePopulation 7) sampleRng (by decide) (by decide)
      heval⟩

/-- C9: for a population of size at least 1 whose fitnesses are the summed
losses of its patterns, the report computes `bestFitness` as the least fitness
among the `popSize` candidates and `averageFitness` as the truncated quotient of
the sum of all fitnesses by `popSize`; that sum lies between 0 and
`2880 * popSize`, which for the shipped `POP_SIZE` is within the range of a
32-bit `int`. -/
theorem generationReport_best_and_average (population : Nat → Candidate) (popSize : Nat)
    (images : Nat → Image) (hpos : 0 < popSize)
    (heval : ∀ i, i < popSize → (population i).fitness
      = ∑ img in Finset.range NUM_IMAGES, computeImageLoss (images img) (population i).patterns) :
    (∃ i, i < popSize ∧ (generationReport population popSize).1 = (population i).fitness) ∧
    (∀ i, i < popSize → (generationReport population popSize).1 ≤ (population i).fitness) ∧
    (generationReport population popSize).2
      = Int.tdiv (∑ i in Finset.range popSize, (population i).fitness) (popSize : Int) ∧
    0 ≤ ∑ i in Finset.range popSize, (population i).fitness ∧
    ∑ i in Finset.range popSize, (population i).fitness ≤ 2880 * (popSize : Int) ∧
    2880 * (POP_SIZE : Int) < 2 ^ 31 := by
  obtain ⟨hsum, hle, hex⟩ := reportLoop_spec population popSize
  have hb : ∀ i, i < popSize → 0 ≤ (population i).fitness ∧ (population i).fitness ≤ 2880 := by
    intro i hi
    rw [heval i hi, ← totalLossOf_eq_sum]
    exact totalLossOf_bounds images _
  refine ⟨?_, hle, ?_, ?_, ?_, by norm_num⟩
  · rcases hex with h | ⟨i, hi, h⟩
    · exact ⟨0, hpos, h⟩
    · exact ⟨i, hi, h⟩
  · simp only [generationReport]
    rw [hsum]
  · exact Finset.sum_nonneg (fun i hi => (hb i (Finset.mem_range.1 hi)).1)
  · calc ∑ i in Finset.range popSize, (population i).fitness
        ≤ ∑ _i in Finset.range popSize, (2880 : Int) :=
          Finset.sum_le_sum (fun i hi => (hb i (Finset.mem_range.1 hi)).2)
      _ = 2880 * (popSize : Int) := by simp [mul_comm]

/-- The report on the evaluated sample population of size 2. -/
theorem generationReport_best_and_average_witness :
    (0 < 2 ∧
      ∀ i, i < 2 → (sampleEvaluated i).fitness
        = ∑ img in Finset.range NUM_IMAGES,
            computeImageLoss ((fun _ => sampleImage) img) (sampleEvaluated i).patterns) ∧
    (∃ i, i < 2 ∧ (generationReport sampleEvaluated 2).1 = (sampleEvaluated i).fitness) ∧
    (∀ i, i < 2 → (generationReport sampleEvaluated 2).1 ≤ (sampleEvaluated i).fitness) ∧
    (generationReport sampleEvaluated 2).2
      = Int.tdiv (∑ i in Finset.range 2, (sampleEvaluated i).fitness) ((2 : Nat) : Int) ∧
    0 ≤ ∑ i in Finset.range 2, (sampleEvaluated i).fitness ∧
    ∑ i in Finset.range 2, (sampleEvaluated i).fitness ≤ 2880 * ((2 : Nat) : Int) ∧
    2880 * (POP_SIZE : Int) < 2 ^ 31 :=
  have heval : ∀ i, i < 2 → (sampleEvaluated i).fitness
      = ∑ img in Finset.range NUM_IMAGES,
          computeImageLoss ((fun _ => sampleImage) img) (sampleEvaluated i).patterns := by
    intro i hi
    unfold sampleEvaluated
    rw [evaluatePopulation_fitness _ _ _ i hi, totalLossOf_eq_sum, evaluatePopulation_patterns]
  ⟨⟨by decide, heval⟩,
    generationReport_best_and_average sampleEvaluated 2 (fun _ => sampleImage) (by decide) heval⟩

/-! ## Binary cells -/

theorem set3_apply (a : Patterns) (p i j : Nat) (v : Int) (p' i' j' : Nat) :
    set3 a p i j v p' i' j' = if p' = p ∧ i' = i ∧ j' = j then v else a p' i' j' := rfl

/-- The cells filled by `generatePatterns` hold 0 or 1. -/
theorem generatePatterns_binary (patterns : Patterns) (g : Rng) :
    Binary (generatePatterns patterns g).1 := by
  have l3 : ∀ (i j : Nat) (st : Patterns × Rng),
      (∀ x : Nat × Nat × Nat, (st.1 x.1 x.2.1 x.2.2 = 0 ∨ st.1 x.1 x.2.1 x.2.2 = 1) →
        ((forLoop 3 (fun k (st : Patterns × Rng) =>
          (set3 st.1 i j k (((rand st.2).1 % 2 : Nat) : Int), (rand st.2).2)) st).1
            x.1 x.2.1 x.2.2 = 0 ∨
         (forLoop 3 (fun k (st : Patterns × Rng) =>
          (set3 st.1 i j k (((rand st.2).1 % 2 : Nat) : Int), (rand st.2).2)) st).1
            x.1 x.2.1 x.2.2 = 1)) ∧
      (∀ x : Nat × Nat × Nat, (∃ k, k < 3 ∧ x = (i, j, k)) →
        ((forLoop 3 (fun k (st : Patterns × Rng) =>
          (set3 st.1 i j k (((rand st.2).1 % 2 : Nat) : Int), (rand st.2).2)) st).1
            x.1 x.2.1 x.2.2 = 0 ∨
         (forLoop 3 (fun k (st : Patterns × Rng) =>
          (set3 st.1 i j k (((rand st.2).1 % 2 : Nat) : Int), (rand st.2).2)) st).1
            x.1 x.2.1 x.2.2 = 1)) := by
    intro i j st
    refine forLoop_cover
      (fun (st : Patterns × Rng) (x : Nat × Nat × Nat) =>
        st.1 x.1 x.2.1 x.2.2 = 0 ∨ st.1 x.1 x.2.1 x.2.2 = 1)
      (fun k x => x = (i, j, k)) 3 _ st ?_
    intro k s _
    have hbit : ((((rand s.2).1 % 2 : Nat) : Int) = 0) ∨ ((((rand s.2).1 % 2 : Nat) : Int) = 1) := by
      rcases Nat.mod_two_eq_zero_or_one (rand s.2).1 with h | h
      · left; rw [h]; rfl
      · right; rw [h]; rfl
    refine ⟨?_, ?_⟩
    · rintro ⟨a, b, c⟩ hx
      simp only [set3_apply] at hx ⊢
      by_cases hc : a = i ∧ b = j ∧ c = k
      · rw [if_pos hc]; exact hbit
      · rw [if_neg hc]; exact hx
    · rintro x rfl
      show set3 s.1 i j k _ i j k = 0 ∨ set3 s.1 i j k _ i j k = 1
      rw [set3_apply, if_pos ⟨rfl, rfl, rfl⟩]; exact hbit
  have l2 : ∀ (i : Nat) (st : Patterns × Rng),
      (∀ x : Nat × Nat × Nat, (st.1 x.1 x.2.1 x.2.2 = 0 ∨ st.1 x.1 x.2.1 x.2.2 = 1) →
        ((forLoop 3 (fun j st => forLoop 3 (fun k (st : Patterns × Rng) =>
          (set3 st.1 i j k (((rand st.2).1 % 2 : Nat) : Int), (rand st.2).2)) st) st).1
            x.1 x.2.1 x.2.2 = 0 ∨
         (forLoop 3 (fun j st => forLoop 3 (fun k (st : Patterns × Rng) =>
          (set3 st.1 i j k (((rand st.2).1 % 2 : Nat) : Int), (rand st.2).2)) st) st).1
            x.1 x.2.1 x.2.2 = 1)) ∧
      (∀ x : Nat × Nat × Nat, (∃ j, j < 3 ∧ ∃ k, k < 3 ∧ x = (i, j, k)) →
        ((forLoop 3 (fun j st => forLoop 3 (fun k (st : Patterns × Rng) =>
          (set3 st.1 i j k (((rand st.2).1 % 2 : Nat) : Int), (rand st.2).2)) st) st).1
            x.1 x.2.1 x.2.2 = 0 ∨
         (forLoop 3 (fun j st => forLoop 3 (fun k (st : Patterns × Rng) =>
          (set3 st.1 i j k (((rand st.2).1 % 2 : Nat) : Int), (rand st.2).2)) st) st).1
            x.1 x.2.1 x.2.2 = 1)) := by
    intro i st
    exact forLoop_cover
      (fun (st : Patterns × Rng) (x : Nat × Nat × Nat) =>
        st.1 x.1 x.2.1 x.2.2 = 0 ∨ st.1 x.1 x.2.1 x.2.2 = 1)
      (fun j x => ∃ k, k < 3 ∧ x = (i, j, k)) 3 _ st (fun j s _ => l3 i j s)
  have l1 := (forLoop_cover
      (fun (st : Patterns × Rng) (x : Nat × Nat × Nat) =>
        st.1 x.1 x.2.1 x.2.2 = 0 ∨ st.1 x.1 x.2.1 x.2.2 = 1)
      (fun i x => ∃ j, j < 3 ∧ ∃ k, k < 3 ∧ x = (i, j, k)) 7
      (fun i st => forLoop 3 (fun j st => forLoop 3 (fun k (st : Patterns × Rng) =>
          (set3 st.1 i j k (((rand st.2).1 % 2 : Nat) : Int), (rand st.2).2)) st) st)
      (patterns, g) (fun i s _ => l2 i s)).2
  intro p i j hp hi hj
  exact l1 (p, i, j) ⟨p, hp, i, hi, j, hj, rfl⟩

/-- Every candidate set up by `initializePopulation` has binary patterns. -/
theorem initializePopulation_binary (population : Nat → Candidate) (popSize : Nat) (g : Rng)
    (c : Nat) (hc : c < popSize) :
    Binary ((initializePopulation population popSize g).1 c).patterns := by
  refine (forLoop_cover (fun (st : (Nat → Candidate) × Rng) (x : Nat) => Binary (st.1 x).patterns)
    (fun i x => x = i) popSize _ (population, g) ?_).2 c ⟨c, hc, rfl⟩
  intro k s _
  refine ⟨fun x hx => ?_, ?_⟩
  · simp only
    by_cases h : x = k
    · subst h
      rw [Function.update_same]
      exact generatePatterns_binary _ _
    · rw [Function.update_noteq h]
      exact hx
  · rintro x rfl
    simp only
    rw [Function.update_same]
    exact generatePatterns_binary _ _

/-- A child of two binary parents is binary. -/
theorem crossover_binary (child parent1 parent2 : Candidate) (g : Rng)
    (h1 : Binary parent1.patterns) (h2 : Binary parent2.patterns) :
    Binary (crossover child parent1 parent2 g).1.patterns := by
  intro p i j hp hi hj
  rw [(crossover_spec child parent1 parent2 g).2.1 p i j hp hi hj]
  by_cases h : g.stream (g.pos + p) % 2 = 0
  · rw [if_pos h]; exact h1 p i j hp hi hj
  · rw [if_neg h]; exact h2 p i j hp hi hj

/-- Mutation keeps the patterns binary: a flipped cell goes from 0 to 1 or
from 1 to 0. -/
theorem mutate_binary (flips : Nat → Bool) (candidate : Candidate) (g : Rng)
    (h : Binary candidate.patterns) : Binary (mutate flips candidate g).1.patterns := by
  unfold mutate
  refine forLoop_preserves (fun (st : Candidate × Rng) => Binary st.1.patterns) _ _ _ h ?_
  intro p st _ hst
  refine forLoop_preserves (fun (st : Candidate × Rng) => Binary st.1.patterns) _ _ _ hst ?_
  intro i st _ hst
  refine forLoop_preserves (fun (st : Candidate × Rng) => Binary st.1.patterns) _ _ _ hst ?_
  intro j st _ hst
  by_cases hf : flips (rand st.2).1 = true
  · simp only [if_pos hf]
    intro a b c ha hb hc
    rw [set3_apply]
    by_cases hx : a = p ∧ b = i ∧ c = j
    · rw [if_pos hx]
      obtain ⟨rfl, rfl, rfl⟩ := hx
      rcases hst a b c ha hb hc with h0 | h1
      · right; rw [h0]; rfl
      · left; rw [h1]; rfl
    · rw [if_neg hx]
      exact hst a b c ha hb hc
  · simp only [if_neg hf]
    exact hst

/-- A child bred from an evaluated binary population is binary. -/
theorem makeChild_binary (flips : Nat → Bool) (population : Nat → Candidate) (popSize : Nat)
    (uninit : Candidate) (g : Rng) (hpos : 0 < popSize)
    (hfit : ∀ i, i < popSize → (population i).fitness < 1000000000)
    (hbin : ∀ i, i < popSize → Binary (population i).patterns) :
    Binary (makeChild flips population popSize uninit g).1.patterns := by
  have hsel : ∀ g', Binary (tournamentSelection population popSize uninit g').1.patterns := by
    intro g'
    obtain ⟨k, _, hk, _⟩ := tournamentSelection_spec population popSize uninit g' hpos hfit
    rw [hk]
    exact hbin _ (Nat.mod_lt _ hpos)
  unfold makeChild
  exact mutate_binary flips _ _ (crossover_binary _ _ _ _ (hsel _) (hsel _))

/-- Every slot of the new population built from an evaluated binary population
is binary, in both branches. -/
theorem buildNewPopulation_binary (method : Nat) (flips : Nat → Bool)
    (population : Nat → Candidate) (popSize : Nat) (newPopulation : Nat → Candidate)
    (uninit : Candidate) (g : Rng)
    (hfit : ∀ i, i < popSize → (population i).fitness < 1000000000)
    (hbin : ∀ i, i < popSize → Binary (population i).patterns) (c : Nat) (hc : c < popSize) :
    Binary ((buildNewPopulation method flips population popSize newPopulation uninit g).1 c).patterns := by
  have hpos : 0 < popSize := Nat.lt_of_le_of_lt (Nat.zero_le c) hc
  have hchild := fun g' => makeChild_binary flips population popSize uninit g' hpos hfit hbin
  unfold buildNewPopulation
  by_cases hm : method = 0
  · rw [if_pos hm]
    refine (forLoop_cover (fun (st : (Nat → Candidate) × Rng) (x : Nat) => Binary (st.1 x).patterns)
      (fun i x => x = i) popSize _ (newPopulation, g) ?_).2 c ⟨c, hc, rfl⟩
    intro k s _
    refine ⟨fun x hx => ?_, ?_⟩
    · simp only
      by_cases h : x = k
      · subst h
        rw [Function.update_same]
        exact hchild _
      · rw [Function.update_noteq h]
        exact hx
    · rintro x rfl
      simp only
      rw [Function.update_same]
      exact hchild _
  · rw [if_neg hm]
    have hcov := forLoop_cover
      (fun (st : (Nat → Candidate) × Rng) (x : Nat) => Binary (st.1 x).patterns)
      (fun k x => x = k + 1) (popSize - 1)
      (fun k (st : (Nat → Candidate) × Rng) =>
        ((Function.update st.1 (k + 1) (makeChild flips population popSize uninit st.2).1,
          (makeChild flips population popSize uninit st.2).2) : (Nat → Candidate) × Rng))
      (Function.update newPopulation 0 (selectBest population popSize), g)
      (by
        intro k s _
        refine ⟨fun x hx => ?_, ?_⟩
        · simp only
          by_cases h : x = k + 1
          · subst h
            rw [Function.update_same]
            exact hchild _
          · rw [Function.update_noteq h]
            exact hx
        · rintro x rfl
          simp only
          rw [Function.update_same]
          exact hchild _)
    rcases Nat.eq_zero_or_pos c with h0 | h0
    · subst h0
      refine hcov.1 0 ?_
      simp only
      rw [Function.update_same]
      obtain ⟨b, hb, hsel, _⟩ := selectBest_spec population popSize hpos
      rw [hsel]
      exact hbin b hb
    · exact hcov.2 c ⟨c - 1, by omega, by omega⟩

/-- The population is evaluated and binary after initialisation and after
every generation. -/
theorem runGenerations_invariant (method : Nat) (flips : Nat → Bool) (images : Nat → Image)
    (popSize : Nat) (population newPopulation : Nat → Candidate) (uninit : Candidate) (g : Rng)
    (generations : Nat) (c : Nat) (hc : c < popSize) :
    Binary ((runGenerations method flips images popSize population newPopulation uninit g
        generations).1 c).patterns ∧
      ((runGenerations method flips images popSize population newPopulation uninit g
        generations).1 c).fitness
        = totalLossOf images ((runGenerations method flips images popSize population
            newPopulation uninit g generations).1 c).patterns := by
  have h := forLoop_preserves
    (fun (st : (Nat → Candidate) × Rng) => ∀ c, c < popSize →
      Binary (st.1 c).patterns ∧ (st.1 c).fitness = totalLossOf images (st.1 c).patterns)
    generations
    (fun _ st => generationStep method flips images popSize newPopulation uninit st)
    (evaluatePopulation (initializePopulation population popSize g).1 popSize images,
      (initializePopulation population popSize g).2)
    (by
      intro c hc
      simp only
      rw [evaluatePopulation_fitness _ _ _ c hc, evaluatePopulation_patterns]
      exact ⟨initializePopulation_binary population popSize g c hc, rfl⟩)
    (by
      intro _ st _ hst c hc
      simp only [generationStep]
      rw [evaluatePopulation_fitness _ _ _ c hc, evaluatePopulation_patterns]
      refine ⟨?_, rfl⟩
      simp only [copyPopulation, if_pos hc]
      refine buildNewPopulation_binary method flips st.1 popSize newPopulation uninit st.2
        (fun i hi => ?_) (fun i hi => (hst i hi).1) c hc
      rw [(hst i hi).2]
      have := (totalLossOf_bounds images (st.1 i).patterns).2
      omega)
  exact h c hc

/-- C10: pattern cells hold 0 or 1 throughout a run.  `generatePatterns`, and
with it every candidate set up by `initializePopulation`, has binary cells for
every sequence of draws; `crossover` of two binary parents and `mutate` of a
binary candidate give binary candidates; hence every candidate of the
population is binary after any number of generations, in either branch of the
generation step. -/
theorem pattern_cells_stay_binary :
    (∀ (patterns : Patterns) (g : Rng), Binary (generatePatterns patterns g).1) ∧
    (∀ (population : Nat → Candidate) (popSize : Nat) (g : Rng) (c : Nat), c < popSize →
      Binary ((initializePopulation population popSize g).1 c).patterns) ∧
    (∀ (child parent1 parent2 : Candidate) (g : Rng),
      Binary parent1.patterns → Binary parent2.patterns →
      Binary (crossover child parent1 parent2 g).1.patterns) ∧
    (∀ (flips : Nat → Bool) (candidate : Candidate) (g : Rng),
      Binary candidate.patterns → Binary (mutate flips candidate g).1.patterns) ∧
    (∀ (method : Nat) (flips : Nat → Bool) (images : Nat → Image) (popSize : Nat)
      (population newPopulation : Nat → Candidate) (uninit : Candidate) (g : Rng)
      (generations c : Nat), c < popSize →
      Binary ((runGenerations method flips images popSize population newPopulation uninit g
        generations).1 c).patterns) :=
  ⟨generatePatterns_binary, initializePopulation_binary, crossover_binary, mutate_binary,
    fun method flips images popSize population newPopulation uninit g generations c hc =>
      (runGenerations_invariant method flips images popSize population newPopulation uninit g
        generations c hc).1⟩

/-! ## Blocks that are patterns -/

theorem hamming_eq_zero (a b : Block) (h : ∀ i j, i < 3 → j < 3 → a i j = b i j) :
    hamming a b = 0 := by
  unfold hamming
  rw [Finset.card_eq_zero, Finset.filter_eq_empty_iff]
  rintro ⟨i, j⟩ hij
  rw [Finset.mem_product, Finset.mem_range, Finset.mem_range] at hij
  simp only [ne_eq, not_not]
  exact h i j hij.1 hij.2

theorem eq_of_hamming_eq_zero (a b : Block) (h : hamming a b = 0) (i j : Nat) (hi : i < 3)
    (hj : j < 3) : a i j = b i j := by
  unfold hamming at h
  rw [Finset.card_eq_zero, Finset.filter_eq_empty_iff] at h
  have := h (x := (i, j)) (by simp [hi, hj])
  simpa using this

/-- A block that coincides with one of the seven patterns is at distance 0. -/
theorem minHamming_eq_zero (b : Block) (c : Patterns) (p : Nat) (hp : p < 7)
    (h : ∀ i j, i < 3 → j < 3 → b i j = c p i j) : minHamming b c = 0 := by
  have h1 : minHamming b c ≤ hamming b (c p) := Finset.inf'_le _ (Finset.mem_range.2 hp)
  rw [hamming_eq_zero b (c p) h] at h1
  exact Nat.le_zero.1 h1

/-- An image all of whose blocks are patterns of the candidate has loss 0. -/
theorem computeImageLoss_eq_zero (image : Image) (candidate : Patterns)
    (h : ∀ bi bj, bi < 8 → bj < 8 → ∃ p, p < 7 ∧
      ∀ i j, i < 3 → j < 3 → image (bi * 3 + i) (bj * 3 + j) = candidate p i j) :
    computeImageLoss image candidate = 0 := by
  rw [computeImageLoss_eq_sum]
  refine Finset.sum_eq_zero (fun bi hbi => Finset.sum_eq_zero (fun bj hbj => ?_))
  obtain ⟨p, hp, hcell⟩ := h bi bj (Finset.mem_range.1 hbi) (Finset.mem_range.1 hbj)
  rw [minHamming_eq_zero (imageBlock image bi bj) candidate p hp hcell]
  rfl

/-- The least fitness found by the report, on any population. -/
theorem generationReport_fst (population : Nat → Candidate) (popSize : Nat) (hpos : 0 < popSize) :
    (∃ i, i < popSize ∧ (generationReport population popSize).1 = (population i).fitness) ∧
      ∀ i, i < popSize → (generationReport population popSize).1 ≤ (population i).fitness := by
  obtain ⟨_, hle, hex⟩ := reportLoop_spec population popSize
  refine ⟨?_, hle⟩
  rcases hex with h | ⟨i, hi, h⟩
  · exact ⟨0, hpos, h⟩
  · exact ⟨i, hi, h⟩

/-- C12: an all-zero image has loss 0 against every candidate with at least
one all-zero pattern; hence with five all-zero images `evaluatePopulation`
gives such a candidate fitness 0, and the best fitness reported for an
evaluated population that contains such a candidate is 0. -/
theorem zero_images_zero_pattern_zero_fitness :
    (∀ (image : Image) (candidate : Patterns),
      (∀ r c, r < 24 → c < 24 → image r c = 0) →
      (∃ p, p < 7 ∧ ∀ i j, i < 3 → j < 3 → candidate p i j = 0) →
      computeImageLoss image candidate = 0) ∧
    (∀ (population : Nat → Candidate) (popSize : Nat) (images : Nat → Image) (k : Nat),
      k < popSize →
      (∀ img, img < 5 → ∀ r c, r < 24 → c < 24 → images img r c = 0) →
      (∃ p, p < 7 ∧ ∀ i j, i < 3 → j < 3 → (population k).patterns p i j = 0) →
      (evaluatePopulation population popSize images k).fitness = 0 ∧
        (generationReport (evaluatePopulation population popSize images) popSize).1 = 0) := by
  have hloss : ∀ (image : Image) (candidate : Patterns),
      (∀ r c, r < 24 → c < 24 → image r c = 0) →
      (∃ p, p < 7 ∧ ∀ i j, i < 3 → j < 3 → candidate p i j = 0) →
      computeImageLoss image candidate = 0 := by
    rintro image candidate hI ⟨p, hp, hC⟩
    refine computeImageLoss_eq_zero image candidate (fun bi bj hbi hbj => ⟨p, hp, ?_⟩)
    intro i j hi hj
    rw [hI _ _ (by omega) (by omega), hC i j hi hj]
  refine ⟨hloss, ?_⟩
  intro population popSize images k hk hI hC
  have hfit : (evaluatePopulation population popSize images k).fitness = 0 := by
    rw [evaluatePopulation_fitness _ _ _ k hk, totalLossOf_eq_sum]
    exact Finset.sum_eq_zero (fun img himg =>
      hloss (images img) _ (hI img (Finset.mem_range.1 himg)) hC)
  refine ⟨hfit, ?_⟩
  have hpos : 0 < popSize := Nat.lt_of_le_of_lt (Nat.zero_le k) hk
  obtain ⟨⟨i, hi, hex⟩, hle⟩ :=
    generationReport_fst (evaluatePopulation population popSize images) popSize hpos
  refine le_antisymm ?_ ?_
  · rw [← hfit]; exact hle k hk
  · rw [hex, evaluatePopulation_fitness _ _ _ i hi]
    exact (totalLossOf_bounds images _).1

/-- A population of two sample candidates against five all-zero images: slot 0
of the sample patterns is all zeros. -/
theorem zero_images_zero_pattern_zero_fitness_witness :
    (evaluatePopulation samplePopulation 2 (fun _ _ _ => 0) 1).fitness = 0 ∧
      (generationReport (evaluatePopulation samplePopulation 2 (fun _ _ _ => 0)) 2).1 = 0 :=
  zero_images_zero_pattern_zero_fitness.2 samplePopulation 2 (fun _ _ _ => 0) 1 (by decide)
    (fun _ _ _ _ _ _ => rfl) ⟨0, by decide, fun _ _ _ _ => rfl⟩

/-! ## Reconstruction as a fixed point -/

/-- C20: the reconstruction `R` of an image from a pattern set is a fixed point
of the block matcher for every pattern set, with or without duplicate
patterns: the loss of `R` is 0, and reconstructing `R` stores in each of the
576 cells the value that `R` holds there. -/
theorem reconstruction_is_fixed_point (image : Image) (candidate : Patterns)
    (result result' : Image) :
    computeImageLoss (reconstructImage image candidate result) candidate = 0 ∧
      ∀ r c, r < 24 → c < 24 →
        reconstructImage (reconstructImage image candidate result) candidate result' r c
          = reconstructImage image candidate result r c := by
  have hblock : ∀ bi bj, bi < 8 → bj < 8 → ∃ p, p < 7 ∧ ∀ i j, i < 3 → j < 3 →
      reconstructImage image candidate result (bi * 3 + i) (bj * 3 + j) = candidate p i j :=
    fun bi bj hbi hbj => ⟨_, (findBest_spec _ candidate).1, fun i j hi hj =>
      reconstructImage_cell image candidate result bi bj i j hbi hbj hi hj⟩
  refine ⟨computeImageLoss_eq_zero _ candidate hblock, ?_⟩
  intro r c hr hc
  have er : r = r / 3 * 3 + r % 3 := by omega
  have ec : c = c / 3 * 3 + c % 3 := by omega
  have hbi : r / 3 < 8 := by omega
  have hbj : c / 3 < 8 := by omega
  have hi : r % 3 < 3 := Nat.mod_lt r (by decide)
  have hj : c % 3 < 3 := Nat.mod_lt c (by decide)
  obtain ⟨p, hp, hcell⟩ := hblock (r / 3) (c / 3) hbi hbj
  obtain ⟨_, _, hmin, _⟩ := findBest_spec
    (copyBlock (reconstructImage image candidate result) (r / 3) (c / 3) (fun _ _ => 0)) candidate
  have hzero : hamming
      (copyBlock (reconstructImage image candidate result) (r / 3) (c / 3) (fun _ _ => 0))
      (candidate p) = 0 :=
    hamming_eq_zero _ _ (fun i j hi hj => by
      rw [copyBlock_cell _ _ _ _ i j hi hj]
      exact hcell i j hi hj)
  have hsel := Nat.le_zero.1 (hzero ▸ hmin p hp)
  have hsame := eq_of_hamming_eq_zero _ _ hsel (r % 3) (c % 3) hi hj
  rw [copyBlock_cell _ _ _ _ _ _ hi hj] at hsame
  have hnew := reconstructImage_cell (reconstructImage image candidate result) candidate result'
    (r / 3) (c / 3) (r % 3) (c % 3) hbi hbj hi hj
  rw [← hsame] at hnew
  unfold imageBlock at hnew
  rw [← er, ← ec] at hnew
  exact hnew

/-! ## Order of the patterns -/

theorem permutePatterns_apply (s : Equiv.Perm (Fin 7)) (c : Patterns) (q : Fin 7) :
    permutePatterns s c q.val = c (s q).val := by
  funext i j
  simp only [permutePatterns, dif_pos q.isLt]

theorem minHamming_permute (s : Equiv.Perm (Fin 7)) (b : Block) (c : Patterns) :
    minHamming b (permutePatterns s c) = minHamming b c := by
  unfold minHamming
  refine le_antisymm ?_ ?_
  · refine (Finset.le_inf'_iff _ _).2 (fun p hp => ?_)
    have hp7 : p < 7 := Finset.mem_range.1 hp
    have h := Finset.inf'_le (fun q => hamming b (permutePatterns s c q))
      (Finset.mem_range.2 (s.symm ⟨p, hp7⟩).isLt)
    rw [permutePatterns_apply, Equiv.apply_symm_apply] at h
    exact h
  · refine (Finset.le_inf'_iff _ _).2 (fun p hp => ?_)
    have hp7 : p < 7 := Finset.mem_range.1 hp
    have h := Finset.inf'_le (fun q => hamming b (c q)) (Finset.mem_range.2 (s ⟨p, hp7⟩).isLt)
    have e := permutePatterns_apply s c ⟨p, hp7⟩
    simp only at e
    rw [e]
    exact h

/-- C17: the loss does not depend on the order of the patterns: for every
image, every pattern set and every permutation of the seven slots, the loss
against the permuted pattern set equals the loss against the original one. -/
theorem computeImageLoss_permutation_invariant (s : Equiv.Perm (Fin 7)) (image : Image)
    (candidate : Patterns) :
    computeImageLoss image (permutePatterns s candidate) = computeImageLoss image candidate := by
  rw [computeImageLoss_eq_sum, computeImageLoss_eq_sum]
  simp only [minHamming_permute]

/-! ## The end of the run -/

/-- C16: for every number of generations, zero included, and every
population size of at least 1, the best candidate reported at the end of the
run is the first candidate of least fitness of the final evaluated population,
which for zero generations is the initially evaluated population, and the five
image losses logged for it sum to its fitness. -/
theorem final_best_is_first_minimum (method : Nat) (flips : Nat → Bool) (images : Nat → Image)
    (popSize : Nat) (population newPopulation : Nat → Candidate) (uninit : Candidate) (g : Rng)
    (generations : Nat) (hpos : 1 ≤ popSize) :
    (∃ b, b < popSize ∧
      finalBest method flips images popSize population newPopulation uninit g generations
        = (runGenerations method flips images popSize population newPopulation uninit g
            generations).1 b ∧
      (∀ i, i < popSize →
        ((runGenerations method flips images popSize population newPopulation uninit g
            generations).1 b).fitness
          ≤ ((runGenerations method flips images popSize population newPopulation uninit g
            generations).1 i).fitness) ∧
      (∀ i, i < b →
        ((runGenerations method flips images popSize population newPopulation uninit g
            generations).1 b).fitness
          < ((runGenerations method flips images popSize population newPopulation uninit g
            generations).1 i).fitness)) ∧
    ∑ imgId in Finset.range NUM_IMAGES,
        loggedLoss images
          (finalBest method flips images popSize population newPopulation uninit g generations)
          imgId
      = (finalBest method flips images popSize population newPopulation uninit g
          generations).fitness ∧
    (runGenerations method flips images popSize population newPopulation uninit g 0).1
      = evaluatePopulation (initializePopulation population popSize g).1 popSize images := by
  obtain ⟨b, hb, hsel, hle, hlt⟩ := selectBest_spec
    (runGenerations method flips images popSize population newPopulation uninit g generations).1
    popSize hpos
  refine ⟨⟨b, hb, hsel, hle, hlt⟩, ?_, rfl⟩
  unfold finalBest
  rw [hsel]
  have h := (runGenerations_invariant method flips images popSize population newPopulation
    uninit g generations b hb).2
  rw [h, totalLossOf_eq_sum]
  rfl

/-- A run of zero generations with a population of size 1. -/
theorem final_best_is_first_minimum_witness :
    1 ≤ 1 ∧
    (∃ b, b < 1 ∧
      finalBest 0 (fun _ => false) (fun _ => sampleImage) 1 samplePopulation samplePopulation
          (samplePopulation 7) sampleRng 0
        = (runGenerations 0 (fun _ => false) (fun _ => sampleImage) 1 samplePopulation
            samplePopulation (samplePopulation 7) sampleRng 0).1 b ∧
      (∀ i, i < 1 →
        ((runGenerations 0 (fun _ => false) (fun _ => sampleImage) 1 samplePopulation
            samplePopulation (samplePopulation 7) sampleRng 0).1 b).fitness
          ≤ ((runGenerations 0 (fun _ => false) (fun _ => sampleImage) 1 samplePopulation
            samplePopulation (samplePopulation 7) sampleRng 0).1 i).fitness) ∧
      (∀ i, i < b →
        ((runGenerations 0 (fun _ => false) (fun _ => sampleImage) 1 samplePopulation
            samplePopulation (samplePopulation 7) sampleRng 0).1 b).fitness
          < ((runGenerations 0 (fun _ => false) (fun _ => sampleImage) 1 samplePopulation
            samplePopulation (samplePopulation 7) sampleRng 0).1 i).fitness)) ∧
    ∑ imgId in Finset.range NUM_IMAGES,
        loggedLoss (fun _ => sampleImage)
          (finalBest 0 (fun _ => false) (fun _ => sampleImage) 1 samplePopulation samplePopulation
            (samplePopulation 7) sampleRng 0) imgId
      = (finalBest 0 (fun _ => false) (fun _ => sampleImage) 1 samplePopulation samplePopulation
          (samplePopulation 7) sampleRng 0).fitness ∧
    (runGenerations 0 (fun _ => false) (fun _ => sampleImage) 1 samplePopulation samplePopulation
        (samplePopulation 7) sampleRng 0).1
      = evaluatePopulation (initializePopulation samplePopulation 1 sampleRng).1 1
          (fun _ => sampleImage) :=
  ⟨by decide,
    final_best_is_first_minimum 0 (fun _ => false) (fun _ => sampleImage) 1 samplePopulation
      samplePopulation (samplePopulation 7) sampleRng 0 (by decide)⟩

/-! ## The start value of the tournament -/

/-- On a population whose fitnesses are below the start value, the result of a
tournament does not depend on the contents of the uninitialised local. -/
theorem tournamentSelection_best_irrelevant (population : Nat → Candidate) (popSize : Nat)
    (best best' : Candidate) (g : Rng) (hpos : 0 < popSize)
    (hfit : ∀ i, i < popSize → (population i).fitness < 1000000000) :
    tournamentSelection population popSize best g
      = tournamentSelection population popSize best' g := by
  obtain ⟨k, _, hk, hle, hlt⟩ := tournamentSelection_spec population popSize best g hpos hfit
  obtain ⟨k', hk3', hk', hle', hlt'⟩ :=
    tournamentSelection_spec population popSize best' g hpos hfit
  have hkk : k = k' := by
    rcases Nat.lt_trichotomy k k' with h | h | h
    · exact absurd (hlt' k h) (not_lt.2 (hle k' hk3'))
    · exact h
    · exact absurd (hlt k' h) (not_lt.2 (hle' k (by omega)))
  refine Prod.ext ?_ ?_
  · rw [hk, hk', hkk]
  · rw [tournamentSelection_rng, tournamentSelection_rng]

/-- After the first iteration of the tournament the start value is gone. -/
theorem tournamentAfter_one (population : Nat → Candidate) (popSize : Nat) (best : Candidate)
    (g : Rng) (hpos : 0 < popSize)
    (hfit : ∀ i, i < popSize → (population i).fitness < 1000000000) :
    (tournamentAfter 1 population popSize best g).1 = population (g.stream g.pos % popSize) := by
  have h0 := hfit (g.stream g.pos % popSize) (Nat.mod_lt _ hpos)
  simp only [tournamentAfter, forLoop, rand]
  rw [if_pos h0]

/-- C18: after `evaluatePopulation` every fitness lies between 0 and
`NUM_IMAGES * 576 = 2880`; so on an evaluated population of size at least 1 the
first iteration of `tournamentSelection` replaces the start value 10^9 by the
first drawn candidate, and the candidate returned is `population[r % popSize]`
for one of the three draws `r`, the same whatever the uninitialised local
held. -/
theorem tournament_on_evaluated_population (population : Nat → Candidate) (popSize : Nat)
    (images : Nat → Image) (best : Candidate) (g : Rng) (hpos : 1 ≤ popSize) :
    (∀ i, i < popSize →
      0 ≤ (evaluatePopulation population popSize images i).fitness ∧
      (evaluatePopulation population popSize images i).fitness ≤ ((NUM_IMAGES * 576 : Nat) : Int) ∧
      (evaluatePopulation population popSize images i).fitness < 10 ^ 9) ∧
    (tournamentAfter 1 (evaluatePopulation population popSize images) popSize best g).1
      = evaluatePopulation population popSize images (g.stream g.pos % popSize) ∧
    tournamentSelection (evaluatePopulation population popSize images) popSize best g
      = tournamentAfter 3 (evaluatePopulation population popSize images) popSize best g ∧
    (∃ k, k < 3 ∧ g.stream (g.pos + k) % popSize < popSize ∧
      (tournamentSelection (evaluatePopulation population popSize images) popSize best g).1
        = evaluatePopulation population popSize images (g.stream (g.pos + k) % popSize)) ∧
    ∀ best', tournamentSelection (evaluatePopulation population popSize images) popSize best' g
      = tournamentSelection (evaluatePopulation population popSize images) popSize best g := by
  have hb : ∀ i, i < popSize →
      0 ≤ (evaluatePopulation population popSize images i).fitness ∧
      (evaluatePopulation population popSize images i).fitness ≤ 2880 := by
    intro i hi
    rw [evaluatePopulation_fitness _ _ _ i hi]
    exact totalLossOf_bounds images _
  have hfit : ∀ i, i < popSize →
      (evaluatePopulation population popSize images i).fitness < 1000000000 := by
    intro i hi
    have := (hb i hi).2
    omega
  refine ⟨fun i hi => ⟨(hb i hi).1, ?_, ?_⟩, ?_, rfl, ?_, ?_⟩
  · have := (hb i hi).2
    norm_num
    exact this
  · have := hfit i hi
    norm_num
    exact this
  · exact tournamentAfter_one _ popSize best g hpos hfit
  · obtain ⟨k, hk, hsel, _⟩ := tournamentSelection_spec
      (evaluatePopulation population popSize images) popSize best g hpos hfit
    exact ⟨k, hk, Nat.mod_lt _ hpos, hsel⟩
  · exact fun best' => tournamentSelection_best_irrelevant _ popSize best' best g hpos hfit

/-- A tournament over the evaluated sample population of size 2. -/
theorem tournament_on_evaluated_population_witness :
    1 ≤ 2 ∧
    (tournamentAfter 1 sampleEvaluated 2 (samplePopulation 7) sampleRng).1
      = sampleEvaluated (sampleRng.stream sampleRng.pos % 2) ∧
    ∃ k, k < 3 ∧ sampleRng.stream (sampleRng.pos + k) % 2 < 2 ∧
      (tournamentSelection sampleEvaluated 2 (samplePopulation 7) sampleRng).1
        = sampleEvaluated (sampleRng.stream (sampleRng.pos + k) % 2) :=
  ⟨by decide,
    (tournament_on_evaluated_population samplePopulation 2 (fun _ => sampleImage)
      (samplePopulation 7) sampleRng (by decide)).2.1,
    (tournament_on_evaluated_population samplePopulation 2 (fun _ => sampleImage)
      (samplePopulation 7) sampleRng (by decide)).2.2.2.1⟩

/-! ## Elitism keeps the best fitness -/

/-- In the elitist branch the least fitness reported after a generation step on
an evaluated population is at most the least fitness before it. -/
theorem generationStep_elitist_report (method : Nat) (flips : Nat → Bool) (images : Nat → Image)
    (popSize : Nat) (population newPopulation : Nat → Candidate) (uninit : Candidate) (g : Rng)
    (hm : method ≠ 0) (hpos : 0 < popSize)
    (heval : ∀ i, i < popSize →
      (population i).fitness = totalLossOf images (population i).patterns) :
    (generationReport
        (generationStep method flips images popSize newPopulation uninit (population, g)).1
        popSize).1
      ≤ (generationReport population popSize).1 := by
  obtain ⟨b, hb, hsel, hle, _⟩ := selectBest_spec population popSize hpos
  have hslot := buildNewPopulation_elite method flips population popSize newPopulation uninit g hm
  rw [hsel] at hslot
  have hnew : ((generationStep method flips images popSize newPopulation uninit
      (population, g)).1 0).fitness = (population b).fitness := by
    simp only [generationStep]
    rw [evaluatePopulation_fitness _ _ _ 0 hpos]
    simp only [copyPopulation, if_pos hpos, hslot]
    exact (heval b hb).symm
  obtain ⟨⟨i, hi, hex⟩, _⟩ := generationReport_fst population popSize hpos
  have hstep := (generationReport_fst
    (generationStep method flips images popSize newPopulation uninit (population, g)).1
    popSize hpos).2 0 hpos
  rw [hnew] at hstep
  rw [hex]
  exact le_trans hstep (hle i hi)

/-- C19: in the elitist branch (`method` different from 0), for every
population of size at least 1 whose fitnesses are the summed losses of its
patterns and every sequence of draws, the least fitness of the population after
the generation step is at most the least fitness before it: every fitness of
the old population is matched or beaten by one of the new population, and the
best fitness of the report does not increase; hence along a run the reported
best fitness never increases from one generation to the next. -/
theorem elitist_best_fitness_never_increases (method : Nat) (flips : Nat → Bool)
    (images : Nat → Image) (popSize : Nat) (population newPopulation : Nat → Candidate)
    (uninit : Candidate) (g : Rng) (hm : method ≠ 0) (hpos : 1 ≤ popSize) :
    ((∀ i, i < popSize → (population i).fitness
        = ∑ img in Finset.range NUM_IMAGES,
            computeImageLoss (images img) (population i).patterns) →
      (∀ i, i < popSize → ∃ j, j < popSize ∧
        ((generationStep method flips images popSize newPopulation uninit
            (population, g)).1 j).fitness ≤ (population i).fitness) ∧
      (generationReport
          (generationStep method flips images popSize newPopulation uninit (population, g)).1
          popSize).1
        ≤ (generationReport population popSize).1) ∧
    ∀ generations,
      (generationReport
          (runGenerations method flips images popSize population newPopulation uninit g
            (generations + 1)).1 popSize).1
        ≤ (generationReport
          (runGenerations method flips images popSize population newPopulation uninit g
            generations).1 popSize).1 := by
  refine ⟨fun heval => ?_, fun generations => ?_⟩
  · have heval' : ∀ i, i < popSize →
        (population i).fitness = totalLossOf images (population i).patterns :=
      fun i hi => by rw [heval i hi, totalLossOf_eq_sum]
    have hrep := generationStep_elitist_report method flips images popSize population
      newPopulation uninit g hm hpos heval'
    refine ⟨fun i hi => ?_, hrep⟩
    obtain ⟨⟨j, hj, hex⟩, _⟩ := generationReport_fst
      (generationStep method flips images popSize newPopulation uninit (population, g)).1
      popSize hpos
    refine ⟨j, hj, ?_⟩
    rw [← hex]
    exact le_trans hrep ((generationReport_fst population popSize hpos).2 i hi)
  · have hstep : runGenerations method flips images popSize population newPopulation uninit g
        (generations + 1)
        = generationStep method flips images popSize newPopulation uninit
            ((runGenerations method flips images popSize population newPopulation uninit g
              generations).1,
             (runGenerations method flips images popSize population newPopulation uninit g
              generations).2) := rfl
    rw [hstep]
    exact generationStep_elitist_report method flips images popSize _ newPopulation uninit _ hm
      hpos (fun i hi => (runGenerations_invariant method flips images popSize population
        newPopulation uninit g generations i hi).2)

/-- The elitist run on a sample population of size 2: the report after the
fourth generation is at most the report after the third. -/
theorem elitist_best_fitness_never_increases_witness :
    ((1 : Nat) ≠ 0 ∧ 1 ≤ 2) ∧
    (generationReport
        (runGenerations 1 (fun r => decide (r % 20 = 0)) (fun _ => sampleImage) 2 samplePopulation
          samplePopulation (samplePopulation 7) sampleRng (3 + 1)).1 2).1
      ≤ (generationReport
        (runGenerations 1 (fun r => decide (r % 20 = 0)) (fun _ => sampleImage) 2 samplePopulation
          samplePopulation (samplePopulation 7) sampleRng 3).1 2).1 :=
  ⟨⟨by decide, by decide⟩,
    (elitist_best_fitness_never_increases 1 (fun r => decide (r % 20 = 0)) (fun _ => sampleImage) 2
      samplePopulation samplePopulation (samplePopulation 7) sampleRng (by decide)
      (by decide)).2 3⟩

/-! ## Mutation -/

/-- One level of the loops of `mutate`: iteration `k` consumes `w` draws and
treats the cells of `S k`, the cell `x` by the draw number `off k x` of the
iteration; the sets `S k` are disjoint.  After `n` iterations the cells of
`S k`, `k < n`, have been treated by the draw number `w * k + off k x` and the
other cells, the fitness and the stream are untouched. -/
theorem mutateLevel (flips : Nat → Bool) (w : Nat) (S : Nat → Nat × Nat × Nat → Prop)
    (off : Nat → Nat × Nat × Nat → Nat) (body : Nat → Candidate × Rng → Candidate × Rng)
    (hbody : ∀ k (st : Candidate × Rng),
      (body k st).2 = Rng.mk st.2.stream (st.2.pos + w) ∧
      (body k st).1.fitness = st.1.fitness ∧
      ∀ x : Nat × Nat × Nat,
        (S k x → (body k st).1.patterns x.1 x.2.1 x.2.2
          = flipCell flips st.2 (off k x) (st.1.patterns x.1 x.2.1 x.2.2)) ∧
        (¬ S k x → (body k st).1.patterns x.1 x.2.1 x.2.2 = st.1.patterns x.1 x.2.1 x.2.2))
    (hdisj : ∀ k k' x, S k x → S k' x → k = k') (n : Nat) (st : Candidate × Rng) :
    (forLoop n body st).2 = Rng.mk st.2.stream (st.2.pos + w * n) ∧
    (forLoop n body st).1.fitness = st.1.fitness ∧
    ∀ x : Nat × Nat × Nat,
      (∀ k, k < n → S k x → (forLoop n body st).1.patterns x.1 x.2.1 x.2.2
        = flipCell flips st.2 (w * k + off k x) (st.1.patterns x.1 x.2.1 x.2.2)) ∧
      ((∀ k, k < n → ¬ S k x) →
        (forLoop n body st).1.patterns x.1 x.2.1 x.2.2 = st.1.patterns x.1 x.2.1 x.2.2) := by
  refine forLoop_induct (fun n (s : Candidate × Rng) =>
    s.2 = Rng.mk st.2.stream (st.2.pos + w * n) ∧ s.1.fitness = st.1.fitness ∧
    ∀ x : Nat × Nat × Nat,
      (∀ k, k < n → S k x → s.1.patterns x.1 x.2.1 x.2.2
        = flipCell flips st.2 (w * k + off k x) (st.1.patterns x.1 x.2.1 x.2.2)) ∧
      ((∀ k, k < n → ¬ S k x) → s.1.patterns x.1 x.2.1 x.2.2 = st.1.patterns x.1 x.2.1 x.2.2))
    n body st ⟨rfl, rfl, fun x => ⟨fun k hk => absurd hk (Nat.not_lt_zero k), fun _ => rfl⟩⟩ ?_
  rintro k s _ ⟨hrng, hfit, hcells⟩
  obtain ⟨brng, bfit, bcells⟩ := hbody k s
  refine ⟨?_, bfit.trans hfit, fun x => ⟨fun k' hk' hS => ?_, fun hno => ?_⟩⟩
  · rw [brng, hrng]
    simp only [Nat.mul_succ, Nat.add_assoc]
  · rcases Nat.lt_succ_iff_lt_or_eq.1 hk' with h | h
    · have hnot : ¬ S k x := fun hSk => absurd (hdisj k' k x hS hSk) (Nat.ne_of_lt h)
      rw [(bcells x).2 hnot]
      exact (hcells x).1 k' h hS
    · subst h
      have hold : s.1.patterns x.1 x.2.1 x.2.2 = st.1.patterns x.1 x.2.1 x.2.2 :=
        (hcells x).2 (fun k'' hk'' hS'' => absurd (hdisj k'' k' x hS'' hS) (Nat.ne_of_lt hk''))
      rw [(bcells x).1 hS, hold, hrng]
      simp only [flipCell, Nat.add_assoc]
  · rw [(bcells x).2 (hno k (Nat.lt_succ_self k))]
    exact (hcells x).2 (fun k' hk' => hno k' (Nat.lt_succ_of_lt hk'))

/-- Cell by cell description of `mutate`: the cell `(p, i, j)` is treated by
the draw number `9 * p + 3 * i + j`, and 63 draws are consumed. -/
theorem mutate_spec (flips : Nat → Bool) (candidate : Candidate) (g : Rng) :
    (mutate flips candidate g).2 = Rng.mk g.stream (g.pos + 63) ∧
    (mutate flips candidate g).1.fitness = candidate.fitness ∧
    (∀ p i j, p < 7 → i < 3 → j < 3 →
      (mutate flips candidate g).1.patterns p i j
        = flipCell flips g (9 * p + 3 * i + j) (candidate.patterns p i j)) ∧
    (∀ p i j, ¬ (p < 7 ∧ i < 3 ∧ j < 3) →
      (mutate flips candidate g).1.patterns p i j = candidate.patterns p i j) := by
  have l3 : ∀ (p i : Nat), ∀ (st : Candidate × Rng), _ :=
    fun p i => mutateLevel flips 1 (fun j x => x = (p, i, j)) (fun _ _ => 0)
      (fun j (st : Candidate × Rng) =>
        if flips (rand st.2).1 then
          (Candidate.mk (set3 st.1.patterns p i j (1 - st.1.patterns p i j)) st.1.fitness,
            (rand st.2).2)
        else (st.1, (rand st.2).2))
      (by
        intro j st
        by_cases hf : flips (rand st.2).1 = true
        · beta_reduce
          rw [if_pos hf]
          refine ⟨rfl, rfl, fun x => ⟨?_, ?_⟩⟩
          · rintro rfl
            simp only [rand] at hf
            simp only [set3_apply, flipCell, Nat.add_zero, hf, if_true, and_self]
          · intro hx
            show set3 st.1.patterns p i j _ x.1 x.2.1 x.2.2 = _
            rw [set3_apply, if_neg (fun h => hx (Prod.ext h.1 (Prod.ext h.2.1 h.2.2)))]
        · beta_reduce
          rw [if_neg hf]
          refine ⟨rfl, rfl, fun x => ⟨?_, fun _ => rfl⟩⟩
          rintro rfl
          simp only [rand] at hf
          simp only [flipCell, Nat.add_zero, hf]
          rfl)
      (by
        rintro k k' x rfl h
        exact congrArg (fun y : Nat × Nat × Nat => y.2.2) h) 3
  have l2 : ∀ (p : Nat), ∀ (st : Candidate × Rng), _ :=
    fun p => mutateLevel flips 3 (fun i x => x.1 = p ∧ x.2.1 = i ∧ x.2.2 < 3) (fun _ x => x.2.2)
      (fun i (st : Candidate × Rng) => forLoop 3 (fun j (st : Candidate × Rng) =>
        if flips (rand st.2).1 then
          (Candidate.mk (set3 st.1.patterns p i j (1 - st.1.patterns p i j)) st.1.fitness,
            (rand st.2).2)
        else (st.1, (rand st.2).2)) st)
      (by
        intro i st
        obtain ⟨hr, hf, hc⟩ := l3 p i st
        refine ⟨hr, hf, fun x => ⟨?_, ?_⟩⟩
        · rintro ⟨h1, h2, h3⟩
          have := (hc x).1 x.2.2 h3 (Prod.ext h1 (Prod.ext h2 rfl))
          simp only [Nat.one_mul, Nat.add_zero] at this
          exact this
        · intro hx
          refine (hc x).2 (fun k hk hxk => hx ?_)
          rw [hxk]
          exact ⟨rfl, rfl, hk⟩)
      (by
        rintro k k' x ⟨_, h, _⟩ ⟨_, h', _⟩
        rw [← h, ← h']) 3
  have l1 := mutateLevel flips 9 (fun p x => x.1 = p ∧ x.2.1 < 3 ∧ x.2.2 < 3)
      (fun _ x => 3 * x.2.1 + x.2.2)
      (fun p (st : Candidate × Rng) => forLoop 3 (fun i (st : Candidate × Rng) =>
        forLoop 3 (fun j (st : Candidate × Rng) =>
          if flips (rand st.2).1 then
            (Candidate.mk (set3 st.1.patterns p i j (1 - st.1.patterns p i j)) st.1.fitness,
              (rand st.2).2)
          else (st.1, (rand st.2).2)) st) st)
      (by
        intro p st
        obtain ⟨hr, hf, hc⟩ := l2 p st
        refine ⟨hr, hf, fun x => ⟨?_, ?_⟩⟩
        · rintro ⟨h1, h2, h3⟩
          exact (hc x).1 x.2.1 h2 ⟨h1, rfl, h3⟩
        · intro hx
          refine (hc x).2 (fun k hk hxk => hx ⟨hxk.1, ?_, hxk.2.2⟩)
          rw [hxk.2.1]
          exact hk)
      (by
        rintro k k' x ⟨h, _⟩ ⟨h', _⟩
        rw [← h, ← h']) 7 (candidate, g)
  obtain ⟨hr, hf, hc⟩ := l1
  refine ⟨hr, hf, fun p i j hp hi hj => ?_, fun p i j hx => ?_⟩
  · have := (hc (p, i, j)).1 p hp ⟨rfl, hi, hj⟩
    simp only [← Nat.add_assoc] at this
    exact this
  · refine (hc (p, i, j)).2 (fun k hk hxk => hx ⟨?_, hxk.2⟩)
    have e : p = k := hxk.1
    rw [e]
    exact hk

/-- The floating-point test of `mutate` decides as the exact quotient does: for
a rounding that is monotone and exact on the multiples `m / 2^56`, `m < 2^53`
(all of them binary64 numbers), and `RAND_MAX` below 2^31, the rounded quotient
is below the rounded constant exactly when `r / RAND_MAX < 5 / 100`. -/
theorem mutationTest_iff (fl : ℚ → ℚ) (RAND_MAX r : Nat) (hmono : Monotone fl)
    (hexact : ∀ m : Nat, m < 2 ^ 53 → fl ((m : ℚ) / 2 ^ 56) = (m : ℚ) / 2 ^ 56)
    (hpos : 0 < RAND_MAX) (hmax : RAND_MAX < 2 ^ 31) :
    mutationTest fl RAND_MAX r = true ↔ (r : ℚ) / (RAND_MAX : ℚ) < 5 / 100 := by
  unfold mutationTest
  rw [decide_eq_true_iff]
  have hRM : (0 : ℚ) < (RAND_MAX : ℚ) := by exact_mod_cast hpos
  have hmax' : RAND_MAX < 2147483648 := by
    norm_num at hmax
    exact hmax
  have hRM' : (RAND_MAX : ℚ) < 2147483648 := by exact_mod_cast hmax'
  constructor
  · intro h
    by_contra hn
    exact absurd h (not_lt.2 (hmono (not_lt.1 hn)))
  · intro h
    have h20 : (r : ℚ) * 100 < 5 * (RAND_MAX : ℚ) := by
      have := (div_lt_iff₀ hRM).1 h
      linarith
    have h20n : r * 100 < 5 * RAND_MAX := by exact_mod_cast h20
    have h21 : (r : ℚ) * 100 + 1 ≤ 5 * (RAND_MAX : ℚ) := by exact_mod_cast h20n
    have hq : (r : ℚ) / (RAND_MAX : ℚ) ≤ ((3602879701896395 : Nat) : ℚ) / 2 ^ 56 := by
      rw [div_le_iff₀ hRM]
      norm_num
      linarith
    have e1 := hexact 3602879701896395 (by norm_num)
    have e0 := hexact 3602879701896396 (by norm_num)
    have hx0 : ((3602879701896396 : Nat) : ℚ) / 2 ^ 56 ≤ 5 / 100 := by norm_num
    calc fl ((r : ℚ) / (RAND_MAX : ℚ))
        ≤ fl (((3602879701896395 : Nat) : ℚ) / 2 ^ 56) := hmono hq
      _ = ((3602879701896395 : Nat) : ℚ) / 2 ^ 56 := e1
      _ < ((3602879701896396 : Nat) : ℚ) / 2 ^ 56 := by norm_num
      _ = fl (((3602879701896396 : Nat) : ℚ) / 2 ^ 56) := e0.symm
      _ ≤ fl (5 / 100) := hmono hx0

theorem roundNearest57_monotone : Monotone roundNearest57 := by
  intro a b hab
  unfold roundNearest57
  have h : ⌊a * 2 ^ 57 + 1 / 2⌋ ≤ ⌊b * 2 ^ 57 + 1 / 2⌋ :=
    Int.floor_le_floor (by nlinarith [show (0 : ℚ) < 2 ^ 57 by norm_num])
  have hc : ((⌊a * 2 ^ 57 + 1 / 2⌋ : Int) : ℚ) ≤ ((⌊b * 2 ^ 57 + 1 / 2⌋ : Int) : ℚ) := by
    exact_mod_cast h
  exact div_le_div_of_nonneg_right hc (by norm_num)

theorem roundNearest57_exact (m : Nat) :
    roundNearest57 ((m : ℚ) / 2 ^ 56) = (m : ℚ) / 2 ^ 56 := by
  unfold roundNearest57
  have hfl : ⌊(m : ℚ) / 2 ^ 56 * 2 ^ 57 + 1 / 2⌋ = 2 * (m : Int) := by
    rw [Int.floor_eq_iff]
    push_cast
    constructor
    · have : (m : ℚ) / 2 ^ 56 * 2 ^ 57 = 2 * m := by
        field_simp
        ring
      rw [this]
      norm_num
    · have : (m : ℚ) / 2 ^ 56 * 2 ^ 57 = 2 * m := by
        field_simp
        ring
      rw [this]
      norm_num
  rw [hfl]
  push_cast
  field_simp
  ring

theorem samplePatterns_binary : Binary samplePatterns := by
  intro k i j _ _ _
  unfold samplePatterns
  split_ifs <;> simp

/-- C15: for a candidate with 0/1 cells, `mutate` consumes 63 draws, one per
cell in pattern-major, row-major order: the cell `(p, i, j)` is decided by the
draw number `9 * p + 3 * i + j`.  The cell becomes 1 minus its value exactly
when its draw `r` satisfies `r / RAND_MAX < 5 / 100` and is unchanged
otherwise, it is 0 or 1 again, and the fitness field is not modified.  The
floating-point test is evaluated with a rounding `fl` that is monotone and
exact on the binary64 numbers `m / 2^56`, `m < 2^53`, and with `RAND_MAX`
below 2^31. -/
theorem mutate_flips_cell_by_its_draw (fl : ℚ → ℚ) (RAND_MAX : Nat) (candidate : Candidate)
    (g : Rng) (hmono : Monotone fl)
    (hexact : ∀ m : Nat, m < 2 ^ 53 → fl ((m : ℚ) / 2 ^ 56) = (m : ℚ) / 2 ^ 56)
    (hpos : 0 < RAND_MAX) (hmax : RAND_MAX < 2 ^ 31) (hbin : Binary candidate.patterns) :
    (mutate (mutationTest fl RAND_MAX) candidate g).2 = Rng.mk g.stream (g.pos + 63) ∧
    (mutate (mutationTest fl RAND_MAX) candidate g).1.fitness = candidate.fitness ∧
    ∀ p i j, p < 7 → i < 3 → j < 3 →
      (((g.stream (g.pos + (9 * p + 3 * i + j)) : ℚ) / (RAND_MAX : ℚ) < 5 / 100 →
        (mutate (mutationTest fl RAND_MAX) candidate g).1.patterns p i j
          = 1 - candidate.patterns p i j) ∧
      (¬ ((g.stream (g.pos + (9 * p + 3 * i + j)) : ℚ) / (RAND_MAX : ℚ) < 5 / 100) →
        (mutate (mutationTest fl RAND_MAX) candidate g).1.patterns p i j
          = candidate.patterns p i j) ∧
      ((mutate (mutationTest fl RAND_MAX) candidate g).1.patterns p i j = 0 ∨
        (mutate (mutationTest fl RAND_MAX) candidate g).1.patterns p i j = 1)) := by
  obtain ⟨hr, hf, hc, _⟩ := mutate_spec (mutationTest fl RAND_MAX) candidate g
  refine ⟨hr, hf, fun p i j hp hi hj => ⟨fun hlt => ?_, fun hge => ?_, ?_⟩⟩
  · rw [hc p i j hp hi hj, flipCell,
      if_pos ((mutationTest_iff fl RAND_MAX _ hmono hexact hpos hmax).2 hlt)]
  · rw [hc p i j hp hi hj, flipCell,
      if_neg (fun h => hge ((mutationTest_iff fl RAND_MAX _ hmono hexact hpos hmax).1 h))]
  · exact mutate_binary (mutationTest fl RAND_MAX) candidate g hbin p i j hp hi hj

/-- Mutation of the first sample candidate with the sample rounding and
`RAND_MAX = 2^31 - 1`: the draw for the cell `(0, 0, 0)` is 1, far below
`RAND_MAX / 20`, so the cell is flipped. -/
theorem mutate_flips_cell_by_its_draw_witness :
    (Monotone roundNearest57 ∧
      (∀ m : Nat, m < 2 ^ 53 → roundNearest57 ((m : ℚ) / 2 ^ 56) = (m : ℚ) / 2 ^ 56) ∧
      0 < 2147483647 ∧ 2147483647 < 2 ^ 31 ∧ Binary (samplePopulation 0).patterns) ∧
    (mutate (mutationTest roundNearest57 2147483647) (samplePopulation 0) sampleRng).1.patterns
        0 0 0
      = 1 - (samplePopulation 0).patterns 0 0 0 :=
  ⟨⟨roundNearest57_monotone, fun m _ => roundNearest57_exact m, by decide, by decide,
      samplePatterns_binary⟩,
    ((mutate_flips_cell_by_its_draw roundNearest57 2147483647 (samplePopulation 0) sampleRng
      roundNearest57_monotone (fun m _ => roundNearest57_exact m) (by decide) (by decide)
      samplePatterns_binary).2.2 0 0 0 (by decide) (by decide) (by decide)).1
      (by
        show (((3 * (0 + (9 * 0 + 3 * 0 + 0)) + 1 : Nat) : ℚ)) / ((2147483647 : Nat) : ℚ) < 5 / 100
        norm_num)⟩

/-! ## Image loading -/

theorem inputAfter_succ (n : Nat) (input : List Nat) :
    inputAfter (n + 1) input
      = match inputAfter n input with
        | none => none
        | some rest => (scanInt rest).map Prod.snd := rfl

/-- One iteration of the inner loop of `readImage`, at row `i` and column `j`,
as a step from `24 * i + j` conversions to one more. -/
theorem readStep (toInt : Int → Int) (input : List Nat) (i j : Nat) (hj : j < 24)
    (st : ReadState)
    (h : (∀ rest, inputAfter (24 * i + j) input = some rest →
        st.failed = false ∧ st.input = rest ∧
        ∀ r c, c < 24 → 24 * r + c < 24 * i + j →
          ∃ v, valueAt input (24 * r + c) = some v ∧ st.image r c = toInt v) ∧
      (inputAfter (24 * i + j) input = none → st.failed = true)) :
    (∀ rest, inputAfter (24 * i + (j + 1)) input = some rest →
        (if st.failed then st
          else
            match scanInt st.input with
            | some (v, rest) => ReadState.mk (set2 st.image i j (toInt v)) rest false
            | none => ReadState.mk st.image st.input true).failed = false ∧
        (if st.failed then st
          else
            match scanInt st.input with
            | some (v, rest) => ReadState.mk (set2 st.image i j (toInt v)) rest false
            | none => ReadState.mk st.image st.input true).input = rest ∧
        ∀ r c, c < 24 → 24 * r + c < 24 * i + (j + 1) →
          ∃ v, valueAt input (24 * r + c) = some v ∧
            (if st.failed then st
              else
                match scanInt st.input with
                | some (v, rest) => ReadState.mk (set2 st.image i j (toInt v)) rest false
                | none => ReadState.mk st.image st.input true).image r c = toInt v) ∧
      (inputAfter (24 * i + (j + 1)) input = none →
        (if st.failed then st
          else
            match scanInt st.input with
            | some (v, rest) => ReadState.mk (set2 st.image i j (toInt v)) rest false
            | none => ReadState.mk st.image st.input true).failed = true) := by
  obtain ⟨hgood, hbad⟩ := h
  have hnext : inputAfter (24 * i + (j + 1)) input
      = match inputAfter (24 * i + j) input with
        | none => none
        | some rest => (scanInt rest).map Prod.snd := inputAfter_succ (24 * i + j) input
  rcases hprev : inputAfter (24 * i + j) input with _ | before
  · have hf := hbad hprev
    rw [hprev] at hnext
    rw [hf, hnext]
    simp only [if_true]
    exact ⟨fun rest hrest => absurd hrest (by simp), fun _ => hf⟩
  · obtain ⟨hf, hin, hcells⟩ := hgood before hprev
    rw [hprev] at hnext
    rw [hf, hin, hnext]
    simp only [Bool.false_eq_true, if_false]
    rcases hscan : scanInt before with _ | ⟨v, after⟩
    · simp only [Option.map_none']
      exact ⟨fun rest hrest => absurd hrest (by simp), fun _ => trivial⟩
    · simp only [Option.map_some']
      refine ⟨fun rest hrest => ⟨trivial, Option.some.inj hrest, fun r c hc hlt => ?_⟩,
        fun hnone => absurd hnone (by simp)⟩
      by_cases hrc : r = i ∧ c = j
      · obtain ⟨rfl, rfl⟩ := hrc
        refine ⟨v, ?_, set2_same _ _ _ _⟩
        simp only [valueAt, hprev, hscan, Option.map_some']
      · obtain ⟨w, hw, hcell⟩ := hcells r c hc (by omega)
        exact ⟨w, hw, (set2_other _ _ _ _ _ _ hrc).trans hcell⟩

/-- The state of `readImage` after its loops: when 576 conversions in a row
succeed, no failure is recorded and every cell holds the stored value of its
conversion; otherwise a failure is recorded. -/
theorem readCells_spec (toInt : Int → Int) (input : List Nat) (image : Image) :
    (∀ rest, inputAfter 576 input = some rest →
      (readCells toInt input image).failed = false ∧
      ∀ r c, r < 24 → c < 24 →
        ∃ v, valueAt input (24 * r + c) = some v ∧
          (readCells toInt input image).image r c = toInt v) ∧
    (inputAfter 576 input = none → (readCells toInt input image).failed = true) := by
  have h := forLoop_induct
    (fun i (st : ReadState) =>
      (∀ rest, inputAfter (24 * i) input = some rest →
        st.failed = false ∧ st.input = rest ∧
        ∀ r c, c < 24 → 24 * r + c < 24 * i →
          ∃ v, valueAt input (24 * r + c) = some v ∧ st.image r c = toInt v) ∧
      (inputAfter (24 * i) input = none → st.failed = true))
    24
    (fun i st =>
      forLoop 24 (fun j (st : ReadState) =>
        if st.failed then st
        else
          match scanInt st.input with
          | some (v, rest) => ReadState.mk (set2 st.image i j (toInt v)) rest false
          | none => ReadState.mk st.image st.input true) st)
    (ReadState.mk image input false)
    ⟨fun rest hrest => ⟨rfl, Option.some.inj hrest,
        fun r c _ hlt => absurd hlt (Nat.not_lt_zero _)⟩,
      fun hn => absurd hn (by simp [inputAfter])⟩
    (fun i st _ hst => forLoop_induct
      (fun j (st : ReadState) =>
        (∀ rest, inputAfter (24 * i + j) input = some rest →
          st.failed = false ∧ st.input = rest ∧
          ∀ r c, c < 24 → 24 * r + c < 24 * i + j →
            ∃ v, valueAt input (24 * r + c) = some v ∧ st.image r c = toInt v) ∧
        (inputAfter (24 * i + j) input = none → st.failed = true))
      24 _ st hst (fun j t hj ht => readStep toInt input i j hj t ht))
  have hdef : readCells toInt input image
      = forLoop 24 (fun i st =>
          forLoop 24 (fun j (st : ReadState) =>
            if st.failed then st
            else
              match scanInt st.input with
              | some (v, rest) => ReadState.mk (set2 st.image i j (toInt v)) rest false
              | none => ReadState.mk st.image st.input true) st)
          (ReadState.mk image input false) := rfl
  rw [← hdef] at h
  generalize readCells toInt input image = final at h ⊢
  have e576 : 24 * 24 = 576 := rfl
  simp only [e576] at h
  refine ⟨fun rest hrest => ⟨(h.1 rest hrest).1, fun r c hr hc => ?_⟩, fun hn => h.2 hn⟩
  exact (h.1 rest hrest).2.2 r c hc (by omega)

/-- The return value and the cells of `readImage`. -/
theorem readImage_spec (toInt : Int → Int) (file : Option (List Nat)) (image : Image) :
    ((readImage toInt file image).1 = 0 ∨ (readImage toInt file image).1 = -1) ∧
    ((readImage toInt file image).1 = 0 ↔
      ∃ input rest, file = some input ∧ inputAfter 576 input = some rest) ∧
    ∀ input rest, file = some input → inputAfter 576 input = some rest →
      ∀ r c, r < 24 → c < 24 →
        ∃ v, valueAt input (24 * r + c) = some v ∧
          (readImage toInt file image).2 r c = toInt v := by
  rcases file with _ | input
  · refine ⟨Or.inr rfl, ⟨fun h => ?_, ?_⟩, fun input rest h => ?_⟩
    · have h' : (-1 : Int) = 0 := h
      exact absurd h' (by decide)
    · rintro ⟨input, rest, h, _⟩
      exact absurd h (by simp)
    · exact absurd h (by simp)
  · obtain ⟨hgood, hbad⟩ := readCells_spec toInt input image
    rcases hp : inputAfter 576 input with _ | rest
    · have hf := hbad hp
      have e : (readImage toInt (some input) image).1 = -1 := by
        simp only [readImage, hf, if_true]
      rw [e]
      refine ⟨Or.inr rfl, ⟨fun h => absurd h (by decide), ?_⟩, fun input' rest' h hall => ?_⟩
      · rintro ⟨input', rest', h, hall⟩
        have e' : input = input' := Option.some.inj h
        subst e'
        rw [hp] at hall
        exact absurd hall (by simp)
      · have e' : input = input' := Option.some.inj h
        subst e'
        rw [hp] at hall
        exact absurd hall (by simp)
    · obtain ⟨hf, hcells⟩ := hgood rest hp
      have e : readImage toInt (some input) image
          = ((0 : Int), (readCells toInt input image).image) := by
        simp only [readImage, hf, Bool.false_eq_true, if_false]
      rw [e]
      refine ⟨Or.inl rfl, ⟨fun _ => ⟨input, rest, rfl, hp⟩, fun _ => rfl⟩, ?_⟩
      intro input' rest' h _ r c hr hc
      have e' : input = input' := Option.some.inj h
      subst e'
      dsimp only
      exact hcells r c hr hc

theorem readImage_zero_iff (toInt : Int → Int) (file : Option (List Nat)) (image : Image) :
    (readImage toInt file image).1 = 0 ↔ ∃ input, file = some input ∧ AllConverted input := by
  rw [(readImage_spec toInt file image).2.1]
  constructor
  · rintro ⟨input, rest, h1, h2⟩
    exact ⟨input, h1, rest, h2⟩
  · rintro ⟨input, h1, rest, h2⟩
    exact ⟨input, rest, h1, h2⟩

theorem readImage_loaded (toInt : Int → Int) (input : List Nat) (image : Image)
    (h : (readImage toInt (some input) image).1 = 0) :
    AllConverted input ∧ LoadedFrom toInt input (readImage toInt (some input) image).2 := by
  obtain ⟨input', h1, rest, h2⟩ := (readImage_zero_iff toInt (some input) image).1 h
  have e : input = input' := Option.some.inj h1
  subst e
  exact ⟨⟨rest, h2⟩, fun i j hi hj =>
    (readImage_spec toInt (some input) image).2.2 input rest rfl h2 i j hi hj⟩

/-- An image delivered by the retry loop was read in full from one of the
files tried, and the files left are a suffix of the list. -/
theorem loadImage_spec (toInt : Int → Int) (attempts : List (Option (List Nat))) :
    ∀ (image img : Image) (rest : List (Option (List Nat))),
      loadImage toInt attempts image = some (img, rest) →
      List.IsSuffix rest attempts ∧
      ∃ input, some input ∈ attempts ∧ AllConverted input ∧ LoadedFrom toInt input img := by
  induction attempts with
  | nil =>
    intro image img rest h
    simp [loadImage] at h
  | cons file more ih =>
    intro image img rest h
    by_cases hret : (readImage toInt file image).1 = 0
    · have hload : loadImage toInt (file :: more) image
          = some ((readImage toInt file image).2, more) := by
        simp only [loadImage, hret, ne_eq, not_true_eq_false, if_false]
      rw [hload] at h
      have himg : (readImage toInt file image).2 = img := congrArg Prod.fst (Option.some.inj h)
      have hrest : more = rest := congrArg Prod.snd (Option.some.inj h)
      obtain ⟨input, hfile, _⟩ := (readImage_zero_iff toInt file image).1 hret
      subst hfile
      obtain ⟨hall, hcells⟩ := readImage_loaded toInt input image hret
      refine ⟨hrest ▸ List.suffix_cons (some input) more, input, List.mem_cons_self _ _, hall, ?_⟩
      rw [← himg]
      exact hcells
    · have hload : loadImage toInt (file :: more) image
          = loadImage toInt more (readImage toInt file image).2 := by
        simp only [loadImage, hret, ne_eq, not_false_eq_true, if_true]
      rw [hload] at h
      obtain ⟨hsuf, input, hmem, hrest⟩ := ih _ img rest h
      exact ⟨hsuf.trans (List.suffix_cons file more), input, List.mem_cons_of_mem _ hmem, hrest⟩

/-- The retry loop delivers an image as soon as one of the files is good. -/
theorem loadImage_total (toInt : Int → Int) (attempts : List (Option (List Nat)))
    (h : ∃ input, some input ∈ attempts ∧ AllConverted input) :
    ∀ image : Image, ∃ loaded, loadImage toInt attempts image = some loaded := by
  induction attempts with
  | nil =>
    obtain ⟨input, hmem, _⟩ := h
    exact absurd hmem (List.not_mem_nil _)
  | cons file more ih =>
    intro image
    by_cases hret : (readImage toInt file image).1 = 0
    · exact ⟨((readImage toInt file image).2, more), by
        simp only [loadImage, hret, ne_eq, not_true_eq_false, if_false]⟩
    · have hload : loadImage toInt (file :: more) image
          = loadImage toInt more (readImage toInt file image).2 := by
        simp only [loadImage, hret, ne_eq, not_false_eq_true, if_true]
      rw [hload]
      obtain ⟨input, hmem, hall⟩ := h
      rcases List.mem_cons.1 hmem with hhead | htail
      · exact absurd ((readImage_zero_iff toInt file image).2 ⟨input, hhead.symm, hall⟩) hret
      · exact ih ⟨input, htail, hall⟩ _

/-- When the loader loop of `main` completes, each of the five images was read
in full from one of the files tried. -/
theorem loadImages_spec (toInt : Int → Int) (attempts : List (Option (List Nat)))
    (images : Nat → Image) (loaded : Nat → Image) (rest : List (Option (List Nat)))
    (h : loadImages toInt attempts images = some (loaded, rest)) (imgId : Nat)
    (himg : imgId < 5) :
    ∃ input, some input ∈ attempts ∧ AllConverted input ∧
      LoadedFrom toInt input (loaded imgId) := by
  have hinv := forLoop_induct
    (fun n (st : Option ((Nat → Image) × List (Option (List Nat)))) =>
      ∀ imgs att, st = some (imgs, att) → List.IsSuffix att attempts ∧
        ∀ k, k < n → ∃ input, some input ∈ attempts ∧ AllConverted input ∧
          LoadedFrom toInt input (imgs k))
    5
    (fun imgId st =>
      match st with
      | none => none
      | some (imgs, att) =>
        match loadImage toInt att (imgs imgId) with
        | none => none
        | some (img, rest) => some (Function.update imgs imgId img, rest))
    (some (images, attempts))
    (by
      intro imgs att hst
      have e := Option.some.inj hst
      have e2 : attempts = att := congrArg Prod.snd e
      refine ⟨?_, fun k hk => absurd hk (Nat.not_lt_zero k)⟩
      rw [← e2])
    (by
      intro n st _ hst imgs' att' hnext
      rcases st with _ | ⟨imgs, att⟩
      · simp at hnext
      · obtain ⟨hsuf, hprev⟩ := hst imgs att rfl
        rcases hload : loadImage toInt att (imgs n) with _ | ⟨img, more⟩
        · simp [hload] at hnext
        · simp only [hload] at hnext
          have e := Option.some.inj hnext
          have e1 : Function.update imgs n img = imgs' := congrArg Prod.fst e
          have e2 : more = att' := congrArg Prod.snd e
          obtain ⟨hsuf', input, hmem, hall, hcells⟩ :=
            loadImage_spec toInt att (imgs n) img more hload
          refine ⟨e2 ▸ hsuf'.trans hsuf, fun k hk => ?_⟩
          rw [← e1]
          by_cases hkn : k = n
          · subst hkn
            rw [Function.update_same]
            exact ⟨input, List.IsSuffix.mem hmem hsuf, hall, hcells⟩
          · rw [Function.update_noteq hkn]
            exact hprev k (by omega))
  exact (hinv loaded rest h).2 imgId himg

/-! ## Conversions and tokens -/

theorem isDigitByte_iff (b : Nat) : isDigitByte b = true ↔ 48 ≤ b ∧ b ≤ 57 := by
  simp [isDigitByte]

theorem isSpaceByte_iff (b : Nat) : isSpaceByte b = true ↔ b = 32 ∨ (9 ≤ b ∧ b ≤ 13) := by
  simp [isSpaceByte]

theorem not_digit_of_space (b : Nat) (h : isSpaceByte b = true) : isDigitByte b = false := by
  rw [isSpaceByte_iff] at h
  rw [Bool.eq_false_iff, ne_eq, isDigitByte_iff]
  omega

theorem not_space_of_digit (b : Nat) (h : isDigitByte b = true) : isSpaceByte b = false := by
  rw [isDigitByte_iff] at h
  rw [Bool.eq_false_iff, ne_eq, isSpaceByte_iff]
  omega

/-- Digits followed by a byte that is not a digit, or by the end of the input,
are read in full and nothing more. -/
theorem readDigits_append (t : List Nat)
    (ht : ∀ b rest, t = b :: rest → isDigitByte b = false) :
    ∀ (ds : List Nat) (acc : Nat), (∀ b, b ∈ ds → isDigitByte b = true) →
      readDigits acc (ds ++ t) = ((readDigits acc ds).1, t) := by
  intro ds
  induction ds with
  | nil =>
    intro acc _
    rcases t with _ | ⟨b, rest⟩
    · rfl
    · simp only [List.nil_append, readDigits, ht b rest rfl, Bool.false_eq_true, if_false]
  | cons d ds ih =>
    intro acc hall
    have hd : isDigitByte d = true := hall d (List.mem_cons_self _ _)
    simp only [List.cons_append, readDigits, hd, if_true]
    exact ih _ (fun b hb => hall b (List.mem_cons_of_mem _ hb))

theorem readDigits_all (ds : List Nat) (acc : Nat) (hall : ∀ b, b ∈ ds → isDigitByte b = true) :
    readDigits acc ds = ((readDigits acc ds).1, []) := by
  have h := readDigits_append [] (fun b rest h => absurd h (by simp)) ds acc hall
  rw [List.append_nil] at h
  exact h

/-- A nonempty run of digits followed by a byte that is not a digit is one
numeral, read in full. -/
theorem readNumeral_append (ds t : List Nat) (hds : isNumeral ds = true)
    (ht : ∀ b rest, t = b :: rest → isDigitByte b = false) :
    ∃ v, readNumeral ds = some (v, []) ∧ readNumeral (ds ++ t) = some (v, t) := by
  rcases ds with _ | ⟨d, ds⟩
  · simp [isNumeral] at hds
  · have hall : ∀ b, b ∈ d :: ds → isDigitByte b = true := by
      simp only [isNumeral, List.isEmpty_cons, Bool.not_false, Bool.true_and,
        List.all_eq_true] at hds
      exact hds
    have hd : isDigitByte d = true := hall d (List.mem_cons_self _ _)
    refine ⟨(readDigits 0 (d :: ds)).1, ?_, ?_⟩
    · simp only [readNumeral, hd, if_true]
      rw [← readDigits_all (d :: ds) 0 hall]
    · simp only [List.cons_append, readNumeral, hd, if_true]
      rw [← List.cons_append, readDigits_append t ht (d :: ds) 0 hall]

/-- An integer token followed by white space or by the end of the input is
converted in full, to the value that the token has on its own. -/
theorem readSigned_word (w t : List Nat) (hw : isIntegerWord w = true)
    (ht : ∀ b rest, t = b :: rest → isSpaceByte b = true) :
    ∃ v, readSigned w = some (v, []) ∧ readSigned (w ++ t) = some (v, t) := by
  have ht' : ∀ b rest, t = b :: rest → isDigitByte b = false :=
    fun b rest h => not_digit_of_space b (ht b rest h)
  rcases w with _ | ⟨b, ws⟩
  · simp [isIntegerWord] at hw
  · by_cases h45 : b = 45
    · have hnum : isNumeral ws = true := by
        simpa [isIntegerWord, h45] using hw
      obtain ⟨v, h1, h2⟩ := readNumeral_append ws t hnum ht'
      refine ⟨-(v : Int), ?_, ?_⟩
      · simp only [readSigned, h45, if_true, h1, Option.map_some']
      · simp only [List.cons_append, readSigned, h45, if_true, h2, Option.map_some']
    · by_cases h43 : b = 43
      · have hnum : isNumeral ws = true := by
          simpa [isIntegerWord, h43] using hw
        obtain ⟨v, h1, h2⟩ := readNumeral_append ws t hnum ht'
        refine ⟨(v : Int), ?_, ?_⟩
        · simp only [readSigned, h43, if_true, h1, Option.map_some']
          simp
        · simp only [List.cons_append, readSigned, h43, if_true, h2, Option.map_some']
          simp
      · have hnum : isNumeral (b :: ws) = true := by
          simpa [isIntegerWord, h45, h43] using hw
        obtain ⟨v, h1, h2⟩ := readNumeral_append (b :: ws) t hnum ht'
        refine ⟨(v : Int), ?_, ?_⟩
        · simp only [readSigned, h45, h43, if_false, h1, Option.map_some']
        · rw [List.cons_append] at h2
          simp only [List.cons_append, readSigned, h45, h43, if_false, h2, Option.map_some']

/-- The first token of an input: the input is the token followed by the rest,
and the rest is empty or begins with white space. -/
theorem takeWord_spec : ∀ s : List Nat,
    s = (takeWord s).1 ++ (takeWord s).2 ∧
      ∀ b rest, (takeWord s).2 = b :: rest → isSpaceByte b = true := by
  intro s
  induction s with
  | nil => exact ⟨rfl, fun b rest h => absurd h (by simp [takeWord])⟩
  | cons c cs ih =>
    by_cases hc : isSpaceByte c = true
    · simp only [takeWord, hc, if_true, List.nil_append, true_and]
      intro b rest h
      have e : c = b := (List.cons.inj h).1
      rw [← e]
      exact hc
    · simp only [takeWord, hc, Bool.false_eq_true, if_false, List.cons_append]
      exact ⟨congrArg (List.cons c) ih.1, ih.2⟩

theorem skipSpace_skipSpace : ∀ s : List Nat, skipSpace (skipSpace s) = skipSpace s := by
  intro s
  induction s with
  | nil => rfl
  | cons c cs ih =>
    by_cases hc : isSpaceByte c = true
    · simp only [skipSpace, hc, if_true]
      exact ih
    · simp only [skipSpace, hc, Bool.false_eq_true, if_false]

/-- A conversion on an input whose first token is an integer reads that token
in full and stops after it. -/
theorem scanInt_word (input : List Nat)
    (hw : isIntegerWord (takeWord (skipSpace input)).1 = true) :
    ∃ v, scanInt (takeWord (skipSpace input)).1 = some (v, []) ∧
      scanInt input = some (v, (takeWord (skipSpace input)).2) := by
  obtain ⟨hsplit, hstop⟩ := takeWord_spec (skipSpace input)
  obtain ⟨v, h1, h2⟩ := readSigned_word _ _ hw hstop
  rw [← hsplit] at h2
  refine ⟨v, ?_, h2⟩
  have hskip : skipSpace (takeWord (skipSpace input)).1 = (takeWord (skipSpace input)).1 := by
    rcases hword : (takeWord (skipSpace input)).1 with _ | ⟨b, ws⟩
    · rfl
    · have hb : isSpaceByte b = false := by
        rw [hword] at hw
        by_cases h45 : b = 45
        · rw [h45]; decide
        · by_cases h43 : b = 43
          · rw [h43]; decide
          · have hnum : isNumeral (b :: ws) = true := by
              simpa [isIntegerWord, h45, h43] using hw
            simp only [isNumeral, List.isEmpty_cons, Bool.not_false, Bool.true_and,
              List.all_eq_true] at hnum
            exact not_space_of_digit b (hnum b (List.mem_cons_self _ _))
      simp only [skipSpace, hb, Bool.false_eq_true, if_false]
  unfold scanInt
  rw [hskip]
  exact h1

/-- When the first `n` tokens of the input are integers, the first `n`
conversions succeed, each reads one token in full, and its value is the value
of the token on its own. -/
theorem words_convert (input : List Nat) :
    ∀ n, (∀ k, k < n → isIntegerWord (nthWord input k) = true) →
      inputAfter n input = some (afterWords n input) ∧
      ∀ k, k < n → ∃ v, valueAt input k = some v ∧ scanInt (nthWord input k) = some (v, []) := by
  intro n
  induction n with
  | zero => exact fun _ => ⟨rfl, fun k hk => absurd hk (Nat.not_lt_zero k)⟩
  | succ n ih =>
    intro hwords
    obtain ⟨hafter, hvals⟩ := ih (fun k hk => hwords k (Nat.lt_succ_of_lt hk))
    obtain ⟨v, hv1, hv2⟩ := scanInt_word (afterWords n input) (hwords n (Nat.lt_succ_self n))
    refine ⟨?_, fun k hk => ?_⟩
    · rw [inputAfter_succ, hafter]
      simp only [hv2, Option.map_some']
      rfl
    · rcases Nat.lt_succ_iff_lt_or_eq.1 hk with h | h
      · exact hvals k h
      · subst h
        refine ⟨v, ?_, hv1⟩
        simp only [valueAt, hafter, hv2, Option.map_some']

/-! ## Files of repeated numerals -/

theorem repeated_head (d k : Nat) (tail : List Nat)
    (ht : ∀ b rest, tail = b :: rest → isDigitByte b = false) :
    ∀ b rest, repeated [32, d] k tail = b :: rest → isDigitByte b = false := by
  intro b rest h
  rcases k with _ | k
  · exact ht b rest h
  · have e : (32 : Nat) = b := (List.cons.inj h).1
    rw [← e]
    decide

/-- A space and one digit, followed by a byte that is not a digit: the
conversion reads the digit and stops. -/
theorem scanInt_unit (d : Nat) (hd : isDigitByte d = true) (rest : List Nat)
    (hrest : ∀ b t, rest = b :: t → isDigitByte b = false) :
    scanInt (32 :: d :: rest) = some (((d - 48 : Nat) : Int), rest) := by
  have hdr := (isDigitByte_iff d).1 hd
  have hsp : isSpaceByte d = false := not_space_of_digit d hd
  have h32 : isSpaceByte 32 = true := by decide
  have h45 : ¬ d = 45 := by omega
  have h43 : ¬ d = 43 := by omega
  have hdig := readDigits_append rest hrest [] (10 * 0 + (d - 48)) (fun b hb => absurd hb (by simp))
  simp only [List.nil_append, readDigits] at hdig
  simp only [scanInt, skipSpace, h32, hsp, if_true, Bool.false_eq_true, if_false, readSigned,
    h45, h43, readNumeral, hd, readDigits, hdig, Option.map_some']
  simp

/-- On a file of `m` numerals of one digit, each after a space, the first `m`
conversions each read one numeral. -/
theorem inputAfter_repeated (d : Nat) (hd : isDigitByte d = true) (tail : List Nat)
    (ht : ∀ b rest, tail = b :: rest → isDigitByte b = false) (m : Nat) :
    ∀ n, n ≤ m →
      inputAfter n (repeated [32, d] m tail) = some (repeated [32, d] (m - n) tail) := by
  intro n
  induction n with
  | zero => exact fun _ => rfl
  | succ n ih =>
    intro hn
    have e : m - n = (m - (n + 1)) + 1 := by omega
    rw [inputAfter_succ, ih (by omega), e]
    show (scanInt (32 :: d :: repeated [32, d] (m - (n + 1)) tail)).map Prod.snd = _
    rw [scanInt_unit d hd _ (repeated_head d _ tail ht)]
    rfl

theorem valueAt_repeated (d : Nat) (hd : isDigitByte d = true) (tail : List Nat)
    (ht : ∀ b rest, tail = b :: rest → isDigitByte b = false) (m k : Nat) (hk : k < m) :
    valueAt (repeated [32, d] m tail) k = some ((d - 48 : Nat) : Int) := by
  have e : m - k = (m - (k + 1)) + 1 := by omega
  unfold valueAt
  rw [inputAfter_repeated d hd tail ht m k (by omega), e]
  show (scanInt (32 :: d :: repeated [32, d] (m - (k + 1)) tail)).map Prod.fst = _
  rw [scanInt_unit d hd _ (repeated_head d _ tail ht)]
  rfl

theorem allConverted_repeated (d : Nat) (hd : isDigitByte d = true) (tail : List Nat)
    (ht : ∀ b rest, tail = b :: rest → isDigitByte b = false) :
    AllConverted (repeated [32, d] 576 tail) :=
  ⟨_, inputAfter_repeated d hd tail ht 576 576 (Nat.le_refl _)⟩

/-- The tokens of the file ` 1 1 ... 1x` before the last one are passed one by
one. -/
theorem afterWords_onesThenX (m : Nat) :
    ∀ n, n < m → afterWords n (repeated [32, 49] m [120]) = repeated [32, 49] (m - n) [120] := by
  intro n
  induction n with
  | zero => exact fun _ => rfl
  | succ n ih =>
    intro hn
    have e : m - n = (m - (n + 1 + 1)) + 1 + 1 := by omega
    have e' : m - (n + 1) = (m - (n + 1 + 1)) + 1 := by omega
    show (takeWord (skipSpace (afterWords n (repeated [32, 49] m [120])))).2 = _
    rw [ih (by omega), e, e']
    simp [repeated, skipSpace, takeWord, isSpaceByte]

theorem nthWord_onesThenX : nthWord onesThenX 575 = [49, 120] := by
  unfold nthWord onesThenX
  rw [afterWords_onesThenX 576 575 (by decide)]
  decide

theorem wrapInt32_id (v : Int) (h1 : -2147483648 ≤ v) (h2 : v ≤ 2147483647) :
    wrapInt32 v = v := by
  unfold wrapInt32
  omega

/-! ## Properties of image loading -/

/-- C11 fails as stated: on the file ` 1 1 ... 1x` all 576 conversions succeed
and `readImage` returns 0, although the 576th whitespace-separated token of
the file is `1x`, which is not an integer. -/
theorem readImage_accepts_split_token :
    (readImage wrapInt32 (some onesThenX) (fun _ _ => 0)).1 = 0 ∧
      nthWord onesThenX 575 = [49, 120] ∧ isIntegerWord (nthWord onesThenX 575) = false := by
  refine ⟨(readImage_zero_iff wrapInt32 (some onesThenX) (fun _ _ => 0)).2
    ⟨onesThenX, rfl, allConverted_repeated 49 (by decide) [120] ?_⟩, nthWord_onesThenX, ?_⟩
  · intro b rest h
    have e : (120 : Nat) = b := (List.cons.inj h).1
    rw [← e]
    decide
  · rw [nthWord_onesThenX]
    decide

/-- C11, amended: `readImage` returns 0 exactly when the file opens and 576
conversions `%d` in a row succeed, each reading the longest numeral after the
white space and leaving the bytes after it unread; cell `(i, j)` then holds the
`int` stored by conversion number `24 * i + j`; in every other case it returns
-1.  When each of the first 576 whitespace-separated tokens is an integer,
`readImage` does return 0 and cell `(i, j)` holds the `int` of token number
`24 * i + j`.  The retry loop of `main` delivers an image only from a call that
returned 0, and does deliver one when a good file is among those tried; so
every image with which the run goes on was read in full from one file. -/
theorem readImage_all_or_nothing :
    (∀ (toInt : Int → Int) (file : Option (List Nat)) (image : Image),
      ((readImage toInt file image).1 = 0 ↔ ∃ input, file = some input ∧ AllConverted input) ∧
      ((readImage toInt file image).1 ≠ 0 → (readImage toInt file image).1 = -1)) ∧
    (∀ (toInt : Int → Int) (input : List Nat) (image : Image),
      (readImage toInt (some input) image).1 = 0 →
      LoadedFrom toInt input (readImage toInt (some input) image).2) ∧
    (∀ (toInt : Int → Int) (input : List Nat) (image : Image),
      (∀ k, k < 576 → isIntegerWord (nthWord input k) = true) →
      (readImage toInt (some input) image).1 = 0 ∧
      ∀ i j, i < 24 → j < 24 → ∃ v, scanInt (nthWord input (24 * i + j)) = some (v, []) ∧
        (readImage toInt (some input) image).2 i j = toInt v) ∧
    (∀ (toInt : Int → Int) (attempts : List (Option (List Nat))) (image img : Image)
      (rest : List (Option (List Nat))), loadImage toInt attempts image = some (img, rest) →
      ∃ input, some input ∈ attempts ∧ (readImage toInt (some input) image).1 = 0 ∧
        LoadedFrom toInt input img) ∧
    (∀ (toInt : Int → Int) (attempts : List (Option (List Nat))) (image : Image),
      (∃ file, file ∈ attempts ∧ (readImage toInt file image).1 = 0) →
      ∃ loaded, loadImage toInt attempts image = some loaded) ∧
    (∀ (toInt : Int → Int) (attempts : List (Option (List Nat))) (images loaded : Nat → Image)
      (rest : List (Option (List Nat))),
      loadImages toInt attempts images = some (loaded, rest) →
      ∀ imgId, imgId < NUM_IMAGES →
        ∃ input, some input ∈ attempts ∧ AllConverted input ∧
          LoadedFrom toInt input (loaded imgId)) := by
  refine ⟨fun toInt file image => ⟨readImage_zero_iff toInt file image, fun hne => ?_⟩,
    fun toInt input image h => (readImage_loaded toInt input image h).2,
    fun toInt input image hwords => ?_,
    fun toInt attempts image img rest h => ?_,
    fun toInt attempts image h => ?_,
    fun toInt attempts images loaded rest h imgId himg =>
      loadImages_spec toInt attempts images loaded rest h imgId himg⟩
  · rcases (readImage_spec toInt file image).1 with h | h
    · exact absurd h hne
    · exact h
  · obtain ⟨hafter, hvals⟩ := words_convert input 576 hwords
    have hret : (readImage toInt (some input) image).1 = 0 :=
      (readImage_zero_iff toInt (some input) image).2 ⟨input, rfl, _, hafter⟩
    refine ⟨hret, fun i j hi hj => ?_⟩
    obtain ⟨v, hv, hcell⟩ := (readImage_loaded toInt input image hret).2 i j hi hj
    obtain ⟨w, hw, hword⟩ := hvals (24 * i + j) (by omega)
    rw [hv] at hw
    have e : v = w := Option.some.inj hw
    rw [e] at hcell
    exact ⟨w, hword, hcell⟩
  · obtain ⟨_, input, hmem, hall, hcells⟩ := loadImage_spec toInt attempts image img rest h
    exact ⟨input, hmem, (readImage_zero_iff toInt (some input) image).2 ⟨input, rfl, hall⟩,
      hcells⟩
  · obtain ⟨file, hmem, hret⟩ := h
    obtain ⟨input, hfile, hall⟩ := (readImage_zero_iff toInt file image).1 hret
    exact loadImage_total toInt attempts ⟨input, hfile ▸ hmem, hall⟩ image

/-- C13 fails as stated: the file ` 7 7 ... 7` of 576 numerals `7` is loaded
with return value 0, and cell (0, 0) of the image then holds 7, neither 0 nor
1. -/
theorem readImage_accepts_non_binary_cells :
    (readImage wrapInt32 (some sevens) (fun _ _ => 0)).1 = 0 ∧
      (readImage wrapInt32 (some sevens) (fun _ _ => 0)).2 0 0 = 7 ∧
      ¬ ((readImage wrapInt32 (some sevens) (fun _ _ => 0)).2 0 0 = 0 ∨
        (readImage wrapInt32 (some sevens) (fun _ _ => 0)).2 0 0 = 1) := by
  have hstop : ∀ b rest, ([] : List Nat) = b :: rest → isDigitByte b = false :=
    fun b rest h => absurd h (by simp)
  have hret : (readImage wrapInt32 (some sevens) (fun _ _ => 0)).1 = 0 :=
    (readImage_zero_iff wrapInt32 (some sevens) (fun _ _ => 0)).2
      ⟨sevens, rfl, allConverted_repeated 55 (by decide) [] hstop⟩
  obtain ⟨v, hv, hcell⟩ :=
    (readImage_loaded wrapInt32 sevens (fun _ _ => 0) hret).2 0 0 (by decide) (by decide)
  have hval : valueAt sevens (24 * 0 + 0) = some ((55 - 48 : Nat) : Int) :=
    valueAt_repeated 55 (by decide) [] hstop 576 0 (by decide)
  rw [hval] at hv
  have e7 : v = 7 := by
    have := Option.some.inj hv
    rw [← this]
    decide
  have hseven : (readImage wrapInt32 (some sevens) (fun _ _ => 0)).2 0 0 = 7 := by
    rw [hcell, e7]
    decide
  refine ⟨hret, hseven, ?_⟩
  rw [hseven]
  decide

/-- C13, amended: when `readImage` returns 0, every cell `(i, j)` of the image
holds the `int` stored for the numeral read by conversion number `24 * i + j`,
which is the value of the numeral when that is in the range of `int` and need
not be 0 or 1; the cell holds 0 or 1 whenever the numeral is 0 or 1. -/
theorem readImage_cells_are_converted_numerals (toInt : Int → Int) (input : List Nat)
    (image : Image) (h : (readImage toInt (some input) image).1 = 0)
    (hid : ∀ v : Int, -2147483648 ≤ v → v ≤ 2147483647 → toInt v = v) :
    ∀ i j, i < 24 → j < 24 →
      ∃ v, valueAt input (24 * i + j) = some v ∧
        (readImage toInt (some input) image).2 i j = toInt v ∧
        (-2147483648 ≤ v → v ≤ 2147483647 → (readImage toInt (some input) image).2 i j = v) ∧
        (v = 0 ∨ v = 1 →
          (readImage toInt (some input) image).2 i j = 0 ∨
            (readImage toInt (some input) image).2 i j = 1) := by
  intro i j hi hj
  obtain ⟨v, hv, hcell⟩ := (readImage_loaded toInt input image h).2 i j hi hj
  refine ⟨v, hv, hcell, fun h1 h2 => by rw [hcell, hid v h1 h2], fun h01 => ?_⟩
  rcases h01 with h0 | h1
  · left
    rw [hcell, h0]
    exact hid 0 (by decide) (by decide)
  · right
    rw [hcell, h1]
    exact hid 1 (by decide) (by decide)

/-- The file of 576 numerals `7` with the sample conversion: cell (3, 5) holds
the value of conversion number 77, which is 7. -/
theorem readImage_cells_are_converted_numerals_witness :
    ((readImage wrapInt32 (some sevens) (fun _ _ => 0)).1 = 0 ∧
      ∀ v : Int, -2147483648 ≤ v → v ≤ 2147483647 → wrapInt32 v = v) ∧
    ∃ v, valueAt sevens (24 * 3 + 5) = some v ∧
      (readImage wrapInt32 (some sevens) (fun _ _ => 0)).2 3 5 = wrapInt32 v ∧
      (-2147483648 ≤ v → v ≤ 2147483647 →
        (readImage wrapInt32 (some sevens) (fun _ _ => 0)).2 3 5 = v) ∧
      (v = 0 ∨ v = 1 →
        (readImage wrapInt32 (some sevens) (fun _ _ => 0)).2 3 5 = 0 ∨
          (readImage wrapInt32 (some sevens) (fun _ _ => 0)).2 3 5 = 1) :=
  have hret : (readImage wrapInt32 (some sevens) (fun _ _ => 0)).1 = 0 :=
    (readImage_zero_iff wrapInt32 (some sevens) (fun _ _ => 0)).2
      ⟨sevens, rfl, allConverted_repeated 55 (by decide) []
        (fun b rest h => absurd h (by simp))⟩
  ⟨⟨hret, wrapInt32_id⟩,
    readImage_cells_are_converted_numerals wrapInt32 sevens (fun _ _ => 0) hret wrapInt32_id
      3 5 (by decide) (by decide)⟩

/-! ## The sizes as parameters -/

theorem copyBlockFor_cell (blockSize : Nat) (image : Image) (bi bj : Nat) (block : Block)
    (i j : Nat) (hi : i < blockSize) (hj : j < blockSize) :
    copyBlockFor blockSize image bi bj block i j
      = image (bi * blockSize + i) (bj * blockSize + j) :=
  (storeGrid blockSize blockSize (fun i => i) (fun j => j)
    (fun r c => image (bi * blockSize + r) (bj * blockSize + c))
    (fun i j => image (bi * blockSize + i) (bj * blockSize + j)) (fun _ _ _ _ => rfl) block).1
    i j hi hj

theorem blockDistanceFor_congr (blockSize : Nat) (a a' pattern : Block)
    (h : ∀ i j, i < blockSize → j < blockSize → a i j = a' i j) :
    blockDistanceFor blockSize a pattern = blockDistanceFor blockSize a' pattern := by
  unfold blockDistanceFor
  refine forLoop_congr _ _ _ _ (fun i d hi => forLoop_congr _ _ _ _ (fun j d' hj => ?_))
  rw [h i j hi hj]

theorem minDistanceFor_congr (blockSize numPatterns : Nat) (a a' : Block) (candidate : Patterns)
    (h : ∀ i j, i < blockSize → j < blockSize → a i j = a' i j) :
    minDistanceFor blockSize numPatterns a candidate
      = minDistanceFor blockSize numPatterns a' candidate := by
  unfold minDistanceFor
  refine forLoop_congr _ _ _ _ (fun p m _ => ?_)
  simp only [blockDistanceFor_congr blockSize a a' (candidate p) h]

/-- The loss reads only the cells whose row and column are below
`NUM_BLOCKS * BLOCK_SIZE`. -/
theorem computeImageLossFor_congr (imageSize blockSize numPatterns : Nat) (image image' : Image)
    (candidate : Patterns)
    (h : ∀ r c, r < imageSize / blockSize * blockSize → c < imageSize / blockSize * blockSize →
      image r c = image' r c) :
    computeImageLossFor imageSize blockSize numPatterns image candidate
      = computeImageLossFor imageSize blockSize numPatterns image' candidate := by
  have hcell : ∀ b i, b < imageSize / blockSize → i < blockSize →
      b * blockSize + i < imageSize / blockSize * blockSize := by
    intro b i hb hi
    calc b * blockSize + i < b * blockSize + blockSize := Nat.add_lt_add_left hi _
      _ = (b + 1) * blockSize := (Nat.succ_mul b blockSize).symm
      _ ≤ imageSize / blockSize * blockSize := Nat.mul_le_mul_right _ hb
  unfold computeImageLossFor
  refine forLoop_congr _ _ _ _ (fun bi t hbi => forLoop_congr _ _ _ _ (fun bj t' hbj => ?_))
  simp only
  rw [minDistanceFor_congr blockSize numPatterns
    (copyBlockFor blockSize image bi bj (fun _ _ => 0))
    (copyBlockFor blockSize image' bi bj (fun _ _ => 0)) candidate
    (fun i j hi hj => by
      rw [copyBlockFor_cell _ _ _ _ _ i j hi hj, copyBlockFor_cell _ _ _ _ _ i j hi hj]
      exact h _ _ (hcell bi i hbi hi) (hcell bj j hbj hj))]

/-- C14 fails as stated: with an image side of 4 and a block side of 3, which
do not divide, the loss is computed all the same, over the single block of the
truncated quotient; the cell (3, 3), which holds 1 and matches no cell of the
all-zero patterns, is left out and the loss is 0. -/
theorem indivisible_sizes_truncate_silently :
    4 % 3 ≠ 0 ∧ 4 / 3 = 1 ∧
      computeImageLossFor 4 3 7 (fun r c => if r = 3 ∧ c = 3 then 1 else 0) (fun _ _ _ => 0) = 0 := by
  refine ⟨by decide, by decide, ?_⟩
  decide

/-- C14, amended: the code has no divisibility check.  For all sizes,
`NUM_BLOCKS` is the truncated quotient and the loss depends only on the cells
whose row and column are below `NUM_BLOCKS * BLOCK_SIZE`; with the shipped
sizes 24, 3 and 7 the parametrised loss is `computeImageLoss`, the division is
exact, and every cell of the image lies in exactly one cell of one block. -/
theorem loss_covers_truncated_blocks :
    (∀ (imageSize blockSize numPatterns : Nat) (image image' : Image) (candidate : Patterns),
      (∀ r c, r < imageSize / blockSize * blockSize → c < imageSize / blockSize * blockSize →
        image r c = image' r c) →
      computeImageLossFor imageSize blockSize numPatterns image candidate
        = computeImageLossFor imageSize blockSize numPatterns image' candidate) ∧
    (∀ (image : Image) (candidate : Patterns),
      computeImageLossFor IMAGE_SIZE BLOCK_SIZE NUM_PATTERNS image candidate
        = computeImageLoss image candidate) ∧
    IMAGE_SIZE % BLOCK_SIZE = 0 ∧ NUM_BLOCKS * BLOCK_SIZE = IMAGE_SIZE ∧
    (∀ r c, r < IMAGE_SIZE → c < IMAGE_SIZE →
      ∃! x : (Nat × Nat) × (Nat × Nat),
        x.1.1 < NUM_BLOCKS ∧ x.1.2 < NUM_BLOCKS ∧ x.2.1 < BLOCK_SIZE ∧ x.2.2 < BLOCK_SIZE ∧
          r = x.1.1 * BLOCK_SIZE + x.2.1 ∧ c = x.1.2 * BLOCK_SIZE + x.2.2) := by
  refine ⟨computeImageLossFor_congr, fun image candidate => rfl, by decide, by decide, ?_⟩
  intro r c hr hc
  have h8 : NUM_BLOCKS = 8 := by decide
  have h3 : BLOCK_SIZE = 3 := rfl
  have hr' : r < 24 := hr
  have hc' : c < 24 := hc
  simp only [h8, h3]
  refine ⟨((r / 3, c / 3), (r % 3, c % 3)), ?_, ?_⟩
  · dsimp only
    refine ⟨by omega, by omega, Nat.mod_lt r (by decide), Nat.mod_lt c (by decide), by omega,
      by omega⟩
  · rintro ⟨⟨bi, bj⟩, ⟨i, j⟩⟩ ⟨_, _, hi, hj, er, ec⟩
    simp only at hi hj er ec
    have e1 : bi = r / 3 := by omega
    have e2 : bj = c / 3 := by omega
    have e3 : i = r % 3 := by omega
    have e4 : j = c % 3 := by omega
    rw [e1, e2, e3, e4]

end PatternGA
